import Mathlib

/-!
# REDasm listing and disassembly algorithm: a verification development

Shallow embedding of

* `src/redasm/disassembler/listing/listingdocument.h`
  (`ListingItem`, `Listing::ListingComparator`, `Listing::insertionPoint`,
  `Listing::_adjustSearch`, `Listing::binarySearch`, `Listing::indexOf`);
* `src/impl/plugins/assembler/algorithm/algorithm_impl.cpp`
  (`AlgorithmImpl::canBeDisassembled`, `disassembleInstruction`, `done`,
  `createInvalidInstruction`, `disassemble`, `validateTarget`, `validateState`,
  `analyze`);
* `src/redasm/formats/n64/n64.cpp`
  (`N64RomFormat::getEP`, `calculateChecksum`, `checkChecksum`, `getCICVersion`,
  `checkCountryCode`).

Conventions.  A container of item pointers is a `List ListingItem`; an iterator is
its distance from `begin()`, so `end()` is the length of the list.  Iterators that
are moved by the search are integers, and dereferencing a position outside
`[0, size)` is a fault (`none`).  Loops carry a fuel argument; the top-level
functions supply it and the theorems show that it is never exhausted.
`address_t` values are naturals (they are only compared); `u32` item types are
naturals below `2 ^ 32`, and the one `u32` subtraction is taken modulo `2 ^ 32`; the
`int` result of `indexOf` is the iterator distance reduced to 32 bits.
-/

namespace REDasm

/-! ## ListingItem -/

/-- The record `ListingItem`: an address and a `u32` type discriminator. -/
structure ListingItem where
  address : Nat
  type : Nat
deriving DecidableEq, Repr

namespace ListingItem

/-- Enumerator `ListingItem::Undefined`. -/
def Undefined : Nat := 0
/-- Enumerator `ListingItem::SegmentItem`. -/
def SegmentItem : Nat := 1
/-- Enumerator `ListingItem::EmptyItem`. -/
def EmptyItem : Nat := 2
/-- Enumerator `ListingItem::InfoItem`. -/
def InfoItem : Nat := 3
/-- Enumerator `ListingItem::FunctionItem`. -/
def FunctionItem : Nat := 4
/-- Enumerator `ListingItem::SymbolItem`. -/
def SymbolItem : Nat := 5
/-- Enumerator `ListingItem::InstructionItem`. -/
def InstructionItem : Nat := 6
/-- Enumerator `ListingItem::AllItems`, that is `static_cast<u32>(-1)`. -/
def AllItems : Nat := 2 ^ 32 - 1

/-- The type is one of the six listing kinds `SegmentItem .. InstructionItem`. -/
def isItemKind (t : Nat) : Prop := SegmentItem ≤ t ∧ t ≤ InstructionItem

instance (t : Nat) : Decidable (isItemKind t) := by
  unfold isItemKind; exact inferInstance

/-- The type discriminator fits the `u32` field. -/
def fitsU32 (x : ListingItem) : Prop := x.type < 2 ^ 32

instance (x : ListingItem) : Decidable (fitsU32 x) := by
  unfold fitsU32; exact inferInstance

end ListingItem

namespace Listing

/-- The call operator of `Listing::ListingComparator`. -/
def ListingComparator (t1 t2 : ListingItem) : Bool :=
  if t1.address = t2.address then decide (t1.type < t2.type)
  else decide (t1.address < t2.address)

/-- The container is strictly sorted by the comparator (key invariant 4). -/
def StrictlySorted (items : List ListingItem) : Prop :=
  items.Pairwise (fun a b => ListingComparator a b = true)

instance (items : List ListingItem) : Decidable (StrictlySorted items) := by
  unfold StrictlySorted; exact inferInstance

/-- The container is sorted by address alone (equal addresses allowed). -/
def SortedByAddress (items : List ListingItem) : Prop :=
  items.Pairwise (fun a b => a.address ≤ b.address)

instance (items : List ListingItem) : Decidable (SortedByAddress items) := by
  unfold SortedByAddress; exact inferInstance

/-- Dereference of the iterator at signed distance `i` from `begin()`;
`none` is a dereference outside `[0, size)`. -/
def deref (items : List ListingItem) (i : Int) : Option ListingItem :=
  if 0 ≤ i then items[i.toNat]? else none

/-- The loop of `std::lower_bound` (first, remaining length), with the
comparator of the listing: the standard halving search over `[first, first + len)`. -/
def lowerBoundLoop (items : List ListingItem) (item : ListingItem) :
    Nat → Nat → Nat → Option Nat
  | _, first, 0 => some first
  | 0, _, _ + 1 => none
  | fuel + 1, first, len + 1 =>
    let half := (len + 1) / 2
    match items[first + half]? with
    | none => none
    | some m =>
      if ListingComparator m item then
        lowerBoundLoop items item fuel (first + half + 1) (len + 1 - half - 1)
      else
        lowerBoundLoop items item fuel first half

/-- The function `Listing::insertionPoint`:
`std::lower_bound(begin, end, item, ListingComparator)`. -/
def insertionPoint (items : List ListingItem) (item : ListingItem) : Option Nat :=
  lowerBoundLoop items item items.length 0 items.length

/-- The call `container->insert(it, item)` of a sequence container at iterator `it`. -/
def insertAt (items : List ListingItem) (it : Nat) (item : ListingItem) : List ListingItem :=
  items.take it ++ item :: items.drop it

/-- The declaration `int offset = type - (*it)->type`: the `u32` difference,
reinterpreted as a 32-bit signed integer. -/
def searchOffset (type itType : Nat) : Int :=
  let d : Nat := (type + 2 ^ 32 - itType % 2 ^ 32) % 2 ^ 32
  if d < 2 ^ 31 then (d : Int) else (d : Int) - 2 ^ 32

/-- The `while` loop of `Listing::_adjustSearch`. -/
def adjustLoop (items : List ListingItem) (type : Nat) (offset : Int) (searchaddress : Nat) :
    Nat → Int → Option Nat
  | 0, _ => none
  | fuel + 1, it =>
    if it = (items.length : Int) then some items.length
    else
      match deref items it with
      | none => none
      | some x =>
        if searchaddress = x.address then
          if x.type = type then some it.toNat
          else if offset < 0 ∧ it = 0 then some items.length
          else adjustLoop items type offset searchaddress fuel (if offset > 0 then it + 1 else it - 1)
        else some items.length

/-- The function `Listing::_adjustSearch`. -/
def _adjustSearch (items : List ListingItem) (it : Int) (type : Nat) : Option Nat :=
  match deref items it with
  | none => none
  | some x => adjustLoop items type (searchOffset type x.type) x.address (items.length + 1) it

/-- The `while(thebegin <= theend)` loop of `Listing::binarySearch`. -/
def searchLoop (items : List ListingItem) (address type : Nat) : Nat → Int → Int → Option Nat
  | 0, _, _ => none
  | fuel + 1, thebegin, theend =>
    if thebegin ≤ theend then
      let range := theend - thebegin
      let themiddle := thebegin + Int.tdiv range 2
      match deref items themiddle with
      | none => none
      | some m =>
        if m.address = address then _adjustSearch items themiddle type
        else if m.address > address then searchLoop items address type fuel thebegin (themiddle - 1)
        else if m.address < address then searchLoop items address type fuel (themiddle + 1) theend
        else searchLoop items address type fuel thebegin theend
    else some items.length

/-- The function `Listing::binarySearch(container, address, type)`. -/
def binarySearch (items : List ListingItem) (address type : Nat) : Option Nat :=
  if items.length = 0 then some items.length
  else
    match items.head?, items.getLast? with
    | some first, some last =>
      if address < first.address ∨ address > last.address then some items.length
      else searchLoop items address type (items.length + 2) 0 items.length
    | _, _ => none

/-- The conversion of an iterator distance to the `int` that `Listing::indexOf` returns:
the value modulo `2 ^ 32`, read as a 32-bit signed integer. -/
def toInt32 (n : Nat) : Int :=
  let m : Nat := n % 2 ^ 32
  if m < 2 ^ 31 then (m : Int) else (m : Int) - 2 ^ 32

/-- The function `Listing::indexOf(container, address, type)`, whose result is an
`int`: `-1`, or `std::distance(begin, it)` converted to `int`. -/
def indexOf (items : List ListingItem) (address type : Nat) : Option Int :=
  match binarySearch items address type with
  | none => none
  | some it => if it = items.length then some (-1) else some (toInt32 it)


/-- The values `(thebegin, theend)` at each test of the loop condition of
`Listing::binarySearch`, in order; the recursion is that of `searchLoop`. -/
def searchBounds (items : List ListingItem) (address : Nat) :
    Nat → Int → Int → List (Int × Int)
  | 0, _, _ => []
  | fuel + 1, thebegin, theend =>
    (thebegin, theend) ::
      (if thebegin ≤ theend then
        let range := theend - thebegin
        let themiddle := thebegin + Int.tdiv range 2
        match deref items themiddle with
        | none => []
        | some m =>
          if m.address = address then []
          else if m.address > address then searchBounds items address fuel thebegin (themiddle - 1)
          else if m.address < address then searchBounds items address fuel (themiddle + 1) theend
          else searchBounds items address fuel thebegin theend
      else [])

/-- The bounds visited by `Listing::binarySearch(container, address, type)`: none when
it returns before the loop. -/
def binarySearchBounds (items : List ListingItem) (address : Nat) : List (Int × Int) :=
  if items.length = 0 then []
  else
    match items.head?, items.getLast? with
    | some first, some last =>
      if address < first.address ∨ address > last.address then []
      else searchBounds items address (items.length + 2) 0 items.length
    | _, _ => []

/-- The values of `it` at each test of the loop condition of `Listing::_adjustSearch`,
in order; the recursion is that of `adjustLoop`. -/
def adjustWalk (items : List ListingItem) (type : Nat) (offset : Int) (searchaddress : Nat) :
    Nat → Int → List Int
  | 0, _ => []
  | fuel + 1, it =>
    it ::
      (if it = (items.length : Int) then []
      else
        match deref items it with
        | none => []
        | some x =>
          if searchaddress = x.address then
            if x.type = type then []
            else if offset < 0 ∧ it = 0 then []
            else adjustWalk items type offset searchaddress fuel
              (if offset > 0 then it + 1 else it - 1)
          else [])

/-- The positions visited by `Listing::_adjustSearch(container, it, type)`. -/
def adjustSearchWalk (items : List ListingItem) (it : Int) (type : Nat) : List Int :=
  match deref items it with
  | none => []
  | some x => adjustWalk items type (searchOffset type x.type) x.address (items.length + 1) it

/-- The range `theend - thebegin` of the second pair is smaller than that of the first. -/
def shrinks (p q : Int × Int) : Prop := q.2 - q.1 < p.2 - p.1

instance (p q : Int × Int) : Decidable (shrinks p q) := by
  unfold shrinks; exact inferInstance

end Listing

/-! ## The disassembly algorithm (`AlgorithmImpl`) -/

/-- Modelled from the spec: the `InstructionType` kinds of section 3 (the header that
declares them is not among the sources); `Other` stands for the kinds the spec elides. -/
inductive InstructionType
  | None | Invalid | Nop | Stop | Jump | ConditionalJump | Call | ConditionalCall
  | Ret | Compare | Branch | Other (code : Nat)
deriving DecidableEq, Repr

/-- The fields of `Instruction` that `AlgorithmImpl` reads or writes. -/
structure Instruction where
  address : Nat := 0
  size : Nat := 0
  type : InstructionType := InstructionType.None
  mnemonic : String := ""
deriving DecidableEq, Repr

/-- The constant `INVALID_MNEMONIC`. -/
def INVALID_MNEMONIC : String := "db"

/-- Modelled from the spec: the result codes `Algorithm::OK`, `Algorithm::SKIP` and
`Algorithm::FAIL` returned by the decode step (declared in a header that is not among
the sources). -/
inductive Algorithm
  | OK | SKIP | FAIL
deriving DecidableEq, Repr

/-- Modelled from the spec: a `BufferView`, reduced to its end-of-buffer test and the
bytes it shows (section 4.1). -/
structure BufferView where
  eob : Bool
  bytes : List Nat := []
deriving DecidableEq, Repr

/-- Modelled from the spec: the part of the `Loader` contract the algorithm consumes
(section 4.2): `view(address)` and the `valid` flag of `offset(address)`. -/
structure Loader where
  view : Nat → BufferView
  offsetValid : Nat → Bool

/-- Modelled from the spec: a `Segment`, the address range `[address, address + size)`
together with the answer of `is(SegmentType::Code)` (section 3). -/
structure Segment where
  address : Nat
  size : Nat
  code : Bool
deriving DecidableEq, Repr

namespace Segment

/-- Modelled from the spec: the containment test of a segment, `[start, start + size)`. -/
def contains (seg : Segment) (address : Nat) : Bool :=
  decide (seg.address ≤ address) && decide (address < seg.address + seg.size)

/-- The test `is(SegmentType::Code)`. -/
def isCode (seg : Segment) : Bool := seg.code

end Segment

/-- Modelled from the spec: a `Symbol`, reduced to its address and the answers of
`isLocked()` and `is(SymbolType::Code)` (section 3). -/
structure Symbol where
  address : Nat
  locked : Bool
  code : Bool
deriving DecidableEq, Repr

/-- The collaborators that `AlgorithmImpl` only reads: the segments of the document
(immutable once published), the loader and the `decode` of the assembler, which
returns its verdict and the instruction as it left it. -/
structure Env where
  segments : List Segment
  loader : Loader
  decode : BufferView → Instruction → Bool × Instruction

/-- Observable calls made by the algorithm, in the order they happen. -/
inductive Event
  | eraseSymbol (address : Nat)
  | decode (view : BufferView) (instruction : Instruction)
  | onDecoded (instruction : Instruction)
  | onDecodeFailed (instruction : Instruction)
deriving DecidableEq, Repr

/-- The mutable state reachable from `AlgorithmImpl`: the done set, the cached
segment, the symbol table of the document, and the record of observable calls. -/
structure AlgorithmImpl where
  m_done : List Nat := []
  m_currentsegment : Option Segment := none
  symbols : List Symbol := []
  trace : List Event := []
deriving DecidableEq, Repr

/-- The overridable hooks `onDecoded` and `onDecodeFailed` of `Algorithm`: each may
change the state in any way, in particular by calling back into the algorithm. -/
structure Hooks where
  onDecoded : Instruction → AlgorithmImpl → AlgorithmImpl
  onDecodeFailed : Instruction → AlgorithmImpl → AlgorithmImpl

namespace AlgorithmImpl

/-- The state the constructor leaves: empty done set, no cached segment. -/
def init (symbols : List Symbol) : AlgorithmImpl :=
  { m_done := [], m_currentsegment := none, symbols := symbols, trace := [] }

/-- Append an observable call to the record. -/
def log (s : AlgorithmImpl) (e : Event) : AlgorithmImpl :=
  { s with trace := s.trace ++ [e] }

/-- Modelled from the spec: `m_document->segment(address)`, the segment of the document
that contains the address, if any. -/
def segment (env : Env) (address : Nat) : Option Segment :=
  env.segments.find? (fun seg => seg.contains address)

/-- Modelled from the spec: `m_document->symbol(address)`, lookup by address. -/
def symbol (s : AlgorithmImpl) (address : Nat) : Option Symbol :=
  s.symbols.find? (fun sym => sym.address == address)

/-- Modelled from the spec: `m_document->eraseSymbol(address)`, which removes the symbol
at the address unless it is locked (section 4.6); the call itself is recorded. -/
def eraseSymbol (s : AlgorithmImpl) (address : Nat) : AlgorithmImpl :=
  { s with
    symbols := s.symbols.filter (fun sym => !(sym.address == address && !sym.locked))
    trace := s.trace ++ [Event.eraseSymbol address] }

/-- The function `AlgorithmImpl::canBeDisassembled`. -/
def canBeDisassembled (env : Env) (address : Nat) (s : AlgorithmImpl) :
    Bool × AlgorithmImpl :=
  let view := env.loader.view address
  if view.eob then (false, s)
  else
    let s1 : AlgorithmImpl :=
      match s.m_currentsegment with
      | none => { s with m_currentsegment := segment env address }
      | some seg =>
        if !seg.contains address then { s with m_currentsegment := segment env address }
        else s
    match s1.m_currentsegment with
    | none => (false, s1)
    | some seg =>
      if !seg.isCode then (false, s1)
      else if !env.loader.offsetValid address then (false, s1)
      else (true, s1)

/-- The function `AlgorithmImpl::disassembleInstruction`. -/
def disassembleInstruction (env : Env) (address : Nat) (instruction : Instruction)
    (s : AlgorithmImpl) : Algorithm × Instruction × AlgorithmImpl :=
  match canBeDisassembled env address s with
  | (false, s1) => (Algorithm.SKIP, instruction, s1)
  | (true, s1) =>
    let s2 : AlgorithmImpl :=
      match symbol s1 address with
      | some sym =>
        if !sym.locked && !sym.code then eraseSymbol s1 sym.address else s1
      | none => s1
    let instruction1 : Instruction := { instruction with address := address }
    let view := env.loader.view address
    let s3 := s2.log (Event.decode view instruction1)
    match env.decode view instruction1 with
    | (true, instruction2) => (Algorithm.OK, instruction2, s3)
    | (false, instruction2) => (Algorithm.FAIL, instruction2, s3)

/-- The function `AlgorithmImpl::done`. -/
def done (address : Nat) (s : AlgorithmImpl) : AlgorithmImpl :=
  { s with m_done := s.m_done.insert address }

/-- The function `AlgorithmImpl::createInvalidInstruction`. -/
def createInvalidInstruction (instruction : Instruction) : Instruction :=
  let instruction1 : Instruction :=
    if instruction.size = 0 then { instruction with size := 1 } else instruction
  { instruction1 with type := InstructionType.Invalid, mnemonic := INVALID_MNEMONIC }

/-- The function `AlgorithmImpl::emulate`, whose body is commented out in the source. -/
def emulate (_instruction : Instruction) (s : AlgorithmImpl) : AlgorithmImpl := s

/-- The function `AlgorithmImpl::disassemble`. -/
def disassemble (env : Env) (q : Hooks) (address : Nat) (instruction : Instruction)
    (s : AlgorithmImpl) : Algorithm × Instruction × AlgorithmImpl :=
  if address ∈ s.m_done then (Algorithm.SKIP, instruction, s)
  else
    match disassembleInstruction env address instruction (done address s) with
    | (Algorithm.FAIL, instruction1, s1) =>
      let instruction2 := createInvalidInstruction instruction1
      (Algorithm.FAIL, instruction2,
        q.onDecodeFailed instruction2 (s1.log (Event.onDecodeFailed instruction2)))
    | (result, instruction1, s1) =>
      (result, instruction1,
        q.onDecoded instruction1 ((emulate instruction1 s1).log (Event.onDecoded instruction1)))

/-- The state after the symbol check of `disassembleInstruction` (lines 39 to 42 of the
source), named for use in statements. -/
def afterErase (s : AlgorithmImpl) (address : Nat) : AlgorithmImpl :=
  match symbol s address with
  | some sym => if !sym.locked && !sym.code then eraseSymbol s sym.address else s
  | none => s

/-- The addresses at which the `decode` of the assembler was invoked, in order. -/
def decodedAddresses (trace : List Event) : List Nat :=
  trace.filterMap (fun e =>
    match e with
    | Event.decode _ instruction => some instruction.address
    | _ => none)

/-- The hook invocations recorded in a trace. -/
def hookEvents (trace : List Event) : List Event :=
  trace.filter (fun e =>
    match e with
    | Event.onDecoded _ => true
    | Event.onDecodeFailed _ => true
    | _ => false)

/-- The `eraseSymbol` calls recorded in a trace. -/
def erasedAddresses (trace : List Event) : List Nat :=
  trace.filterMap (fun e =>
    match e with
    | Event.eraseSymbol address => some address
    | _ => none)

/-- The call `m_assembler->decode(view, instruction)` as `disassembleInstruction` makes
it: on the view of the loader at the address, with the address field already written. -/
def decodeAt (env : Env) (address : Nat) (instruction : Instruction) : Bool × Instruction :=
  env.decode (env.loader.view address) { instruction with address := address }

/-- Session invariant: no address was decoded twice, and every decoded address is in
the done set. -/
def DecodedOnce (s : AlgorithmImpl) : Prop :=
  (decodedAddresses s.trace).Nodup ∧ ∀ a ∈ decodedAddresses s.trace, a ∈ s.m_done

/-- Hooks that do nothing, used to read off the calls of a single `disassemble`. -/
def silent : Hooks :=
  { onDecoded := fun _ s => s
    onDecodeFailed := fun _ s => s }

end AlgorithmImpl

/-- A finite run of `AlgorithmImpl::disassemble` calls: `call a i nested rest` is a call
at address `a` on instruction `i` whose hook, if one is invoked, makes the calls
`nested` re-entrantly, followed by the calls `rest`. -/
inductive Calls
  | nil
  | call (address : Nat) (instruction : Instruction) (nested : Calls) (rest : Calls)
deriving Repr

namespace AlgorithmImpl

/-- Run a finite sequence of (possibly re-entrant) `disassemble` calls. -/
def runCalls (env : Env) : Calls → AlgorithmImpl → AlgorithmImpl
  | Calls.nil, s => s
  | Calls.call address instruction nested rest, s =>
    let q : Hooks :=
      { onDecoded := fun _ => runCalls env nested
        onDecodeFailed := fun _ => runCalls env nested }
    runCalls env rest (disassemble env q address instruction s).2.2

end AlgorithmImpl

/-! ## Target validation, state validation, analysis -/

/-- Modelled from the spec: an `Operand`, reduced to the answer of `isNumeric()`
(section 3). -/
structure Operand where
  numeric : Bool
deriving DecidableEq, Repr

/-- What `AlgorithmImpl::validateTarget` reads beside the instruction, none of it
declared among the sources: `m_disassembler->getTargetsCount`, `instruction->target()`
(the target operand, if any), `Utils::quoted` and `Utils::hex`. -/
structure TargetContext where
  getTargetsCount : Nat → Nat
  target : Instruction → Option Operand
  quoted : String → String
  hex : Nat → String

/-- Modelled from the spec: the status/problem channel `r_ctx` (section 6), as the
lists of messages it has accepted. -/
structure Context where
  statuses : List String := []
  problems : List String := []
deriving DecidableEq, Repr

namespace Context

/-- The call `r_ctx->problem(text)`. -/
def problem (ctx : Context) (text : String) : Context :=
  { ctx with problems := ctx.problems ++ [text] }

end Context

/-- Modelled from the spec: a `State` item of the state machine, `{id, address}`. -/
structure State where
  id : Nat
  address : Nat
deriving DecidableEq, Repr

namespace AlgorithmImpl

/-- The message `validateTarget` builds for `r_ctx->problem`. -/
def problemMessage (d : TargetContext) (instruction : Instruction) : String :=
  "No targets found for " ++ d.quoted instruction.mnemonic ++ " @ " ++
    d.hex instruction.address

/-- The function `AlgorithmImpl::validateTarget`, a `const` member: it is handed the
state and the channel and returns both. -/
def validateTarget (d : TargetContext) (instruction : Instruction) (s : AlgorithmImpl)
    (ctx : Context) : AlgorithmImpl × Context :=
  if d.getTargetsCount instruction.address ≠ 0 then (s, ctx)
  else
    match d.target instruction with
    | some op =>
      if !op.numeric then (s, ctx)
      else (s, ctx.problem (problemMessage d instruction))
    | none => (s, ctx.problem (problemMessage d instruction))

/-- The function `AlgorithmImpl::validateState`; `baseValidateState` is
`StateMachine::validateState`, which is not among the sources, and the pointer that
`m_document->segment` returns is converted to `bool`. -/
def validateState (env : Env) (baseValidateState : State → Bool) (state : State) : Bool :=
  if !baseValidateState state then false
  else (segment env state.address).isSome

/-- The cache-free definition of `canBeDisassembled`: the view of the loader at the
address is not at end of buffer, the segment of the document containing the address
exists and has kind Code, and the offset of the loader for the address is valid. -/
def canBeDisassembledUncached (env : Env) (address : Nat) : Bool :=
  !(env.loader.view address).eob &&
    (match segment env address with
      | some seg => seg.isCode
      | none => false) &&
    env.loader.offsetValid address

/-- The answers of `canBeDisassembled` to a sequence of queried addresses, the cached
segment being carried from one query to the next. -/
def canBeDisassembledAll (env : Env) : List Nat → AlgorithmImpl → List Bool
  | [], _ => []
  | address :: rest, s =>
    (canBeDisassembled env address s).1 ::
      canBeDisassembledAll env rest (canBeDisassembled env address s).2

/-- Two segments cover disjoint address ranges. -/
def disjointSegments (s1 s2 : Segment) : Prop :=
  s1.address + s1.size ≤ s2.address ∨ s2.address + s2.size ≤ s1.address

instance (s1 s2 : Segment) : Decidable (disjointSegments s1 s2) := by
  unfold disjointSegments; exact inferInstance

/-- The segments of the document are pairwise non-overlapping. -/
def NonOverlapping (segments : List Segment) : Prop :=
  segments.Pairwise disjointSegments

instance (segments : List Segment) : Decidable (NonOverlapping segments) := by
  unfold NonOverlapping; exact inferInstance

/-- The cached segment, when set, is a segment of the document. -/
def CacheValid (env : Env) (s : AlgorithmImpl) : Prop :=
  ∀ seg, s.m_currentsegment = some seg → seg ∈ env.segments

/-- The hooks of a run in which every hook makes the calls `nested` re-entrantly. -/
def reentrant (env : Env) (nested : Calls) : Hooks :=
  { onDecoded := fun _ => runCalls env nested
    onDecodeFailed := fun _ => runCalls env nested }

end AlgorithmImpl

/-- Observable steps of `AlgorithmImpl::analyze`, in the order they happen. -/
inductive AnalysisEvent
  | createAnalyzer
  | status (text : String)
  | analyze
  | analyzeFast
  | computeBasicBlocks
  | moveToEP
  | connectBusyChanged
deriving DecidableEq, Repr

/-- The state `AlgorithmImpl::analyze` works on: the flag `m_analyzed`, whether
`m_analyzer` is set, and the record of the steps taken. -/
structure Analysis where
  m_analyzed : Bool := false
  m_analyzer : Bool := false
  events : List AnalysisEvent := []
deriving DecidableEq, Repr

/-- A finite run of `AlgorithmImpl::analyze` calls: `call nested rest` is a call during
whose analyzer pass the calls `nested` are made re-entrantly, followed by `rest`. -/
inductive AnalyzeCalls
  | nil
  | call (nested : AnalyzeCalls) (rest : AnalyzeCalls)
deriving Repr

namespace AnalyzeCalls

/-- The number of `analyze` calls in a run, nested ones included. -/
def size : AnalyzeCalls → Nat
  | nil => 0
  | call nested rest => 1 + size nested + size rest

/-- The run of `n` successive calls, none of them nested. -/
def successive : Nat → AnalyzeCalls
  | 0 => nil
  | n + 1 => call nil (successive n)

end AnalyzeCalls

namespace Analysis

/-- The state the constructor leaves: `m_analyzed(0)`, `m_analyzer = nullptr`. -/
def init : Analysis := { m_analyzed := false, m_analyzer := false, events := [] }

/-- Append steps to the record. -/
def log (s : Analysis) (es : List AnalysisEvent) : Analysis :=
  { s with events := s.events ++ es }

/-- The function `AlgorithmImpl::analyze`; `during` is what happens inside the analyzer
pass (`m_analyzer->analyze()` or `m_analyzer->analyzeFast()`), in particular calls
that come back into `analyze`. -/
def analyze (during : Analysis → Analysis) (s : Analysis) : Analysis :=
  if s.m_analyzed then
    let s1 := s.log [AnalysisEvent.status "Analyzing (Fast)..."]
    let s2 := during (s1.log [AnalysisEvent.analyzeFast])
    s2.log [AnalysisEvent.computeBasicBlocks, AnalysisEvent.moveToEP]
  else
    let s1 : Analysis := { s with m_analyzed := true }
    let s2 : Analysis := { s1.log [AnalysisEvent.createAnalyzer] with m_analyzer := true }
    let s3 := s2.log [AnalysisEvent.status "Analyzing..."]
    let s4 := during (s3.log [AnalysisEvent.analyze])
    let s5 := s4.log [AnalysisEvent.computeBasicBlocks, AnalysisEvent.moveToEP]
    s5.log [AnalysisEvent.connectBusyChanged]

/-- The steps of a first call in which the analyzer pass makes no call back. -/
def firstPassEvents : List AnalysisEvent :=
  [AnalysisEvent.createAnalyzer, AnalysisEvent.status "Analyzing...",
    AnalysisEvent.analyze, AnalysisEvent.computeBasicBlocks, AnalysisEvent.moveToEP,
    AnalysisEvent.connectBusyChanged]

/-- The steps of a later call in which the analyzer pass makes no call back. -/
def fastPassEvents : List AnalysisEvent :=
  [AnalysisEvent.status "Analyzing (Fast)...", AnalysisEvent.analyzeFast,
    AnalysisEvent.computeBasicBlocks, AnalysisEvent.moveToEP]

/-- The steps of `n` later calls in a row. -/
def fastPasses : Nat → List AnalysisEvent
  | 0 => []
  | n + 1 => fastPassEvents ++ fastPasses n

/-- Run a finite sequence of (possibly re-entrant) `analyze` calls. -/
def runAnalyze : AnalyzeCalls → Analysis → Analysis
  | AnalyzeCalls.nil, s => s
  | AnalyzeCalls.call nested rest, s => runAnalyze rest (analyze (runAnalyze nested) s)

/-- How often a step occurs in the record. -/
def occurrences (e : AnalysisEvent) (s : Analysis) : Nat := s.events.count e

end Analysis

/-! ## The Nintendo 64 ROM format (`N64RomFormat`) -/

/-- The constants of `n64.h` and the helper `REDasm::rol`, none of them among the
sources, taken as parameters: header size, start and length of the checksummed area,
the four checksum seeds, and the six boot code CRCs. -/
structure N64Constants where
  N64_ROM_HEADER_SIZE : Nat
  N64_ROM_CHECKSUM_START : Nat
  N64_ROM_CHECKSUM_LENGTH : Nat
  N64_ROM_CHECKSUM_CIC_6102 : Nat
  N64_ROM_CHECKSUM_CIC_6103 : Nat
  N64_ROM_CHECKSUM_CIC_6105 : Nat
  N64_ROM_CHECKSUM_CIC_6106 : Nat
  N64_BOOT_CODE_CIC_6101_CRC : Nat
  N64_BOOT_CODE_CIC_7102_CRC : Nat
  N64_BOOT_CODE_CIC_6102_CRC : Nat
  N64_BOOT_CODE_CIC_6103_CRC : Nat
  N64_BOOT_CODE_CIC_6105_CRC : Nat
  N64_BOOT_CODE_CIC_6106_CRC : Nat
  rol : Nat → Nat → Nat

/-- What `N64RomFormat` reads from the ROM: `word i` is
`Endianness::cfbe(*reinterpret_cast<u32*>(&m_buffer[i]))`, `boot_code_crc` is the
`crc32` of `m_format->boot_code`, `program_counter`, `crc1` and `crc2` are the header
fields after `Endianness::cfbe`, and `country_code` is the header byte. -/
structure N64Rom where
  word : Nat → Nat
  boot_code_crc : Nat
  program_counter : Nat
  crc1 : Nat
  crc2 : Nat
  country_code : Nat

/-- The `u32` locals `t1 .. t6` of `N64RomFormat::calculateChecksum`. -/
structure ChecksumRegs where
  t1 : Nat
  t2 : Nat
  t3 : Nat
  t4 : Nat
  t5 : Nat
  t6 : Nat
deriving DecidableEq, Repr

namespace N64RomFormat

/-- The country codes of the table in the comment of `checkCountryCode`. -/
def countryCodeTable : List Nat :=
  [0x37, 0x41, 0x42, 0x43, 0x44, 0x45, 0x46, 0x47, 0x48, 0x49, 0x4A, 0x4B, 0x4C,
    0x4E, 0x50, 0x53, 0x55, 0x57, 0x58, 0x59]

/-- The function `N64RomFormat::checkCountryCode`, on the header byte. -/
def checkCountryCode (country_code : Nat) : Bool :=
  if country_code = 0x37 then true
  else if country_code ≥ 0x41 ∧ country_code ≤ 0x4C then true
  else if country_code = 0x4E ∨ country_code = 0x50 then true
  else if country_code = 0x53 ∨ country_code = 0x55 then true
  else if country_code ≥ 0x57 ∧ country_code ≤ 0x59 then true
  else false

/-- The function `N64RomFormat::getCICVersion`: the `switch` over the boot code CRC. -/
def getCICVersion (k : N64Constants) (rom : N64Rom) : Nat :=
  if rom.boot_code_crc = k.N64_BOOT_CODE_CIC_6101_CRC then 6101
  else if rom.boot_code_crc = k.N64_BOOT_CODE_CIC_7102_CRC then 7102
  else if rom.boot_code_crc = k.N64_BOOT_CODE_CIC_6102_CRC then 6102
  else if rom.boot_code_crc = k.N64_BOOT_CODE_CIC_6103_CRC then 6103
  else if rom.boot_code_crc = k.N64_BOOT_CODE_CIC_6105_CRC then 6105
  else if rom.boot_code_crc = k.N64_BOOT_CODE_CIC_6106_CRC then 6106
  else 0

/-- The function `N64RomFormat::getEP`, in `u32` arithmetic. -/
def getEP (k : N64Constants) (rom : N64Rom) : Nat :=
  let pc := rom.program_counter % 2 ^ 32
  let cic_version := getCICVersion k rom
  if cic_version ≠ 0 then
    if cic_version = 6103 then (pc + 2 ^ 32 - 0x100000) % 2 ^ 32
    else if cic_version = 6106 then (pc + 2 ^ 32 - 0x200000) % 2 ^ 32
    else pc
  else pc

/-- The body of the `while` loop of `calculateChecksum` for the word `d`; `aux` is the
word read at `N64_ROM_HEADER_SIZE + 0x0710 + (i & 0xFF)`, used when the boot code is
6105. -/
def checksumBody (k : N64Constants) (bootcode d aux : Nat) (t : ChecksumRegs) :
    ChecksumRegs :=
  let t4 := if (t.t6 + d) % 2 ^ 32 < t.t6 then (t.t4 + 1) % 2 ^ 32 else t.t4
  let t6 := (t.t6 + d) % 2 ^ 32
  let t3 := t.t3 ^^^ d
  let r := k.rol d (d &&& 0x1F) % 2 ^ 32
  let t5 := (t.t5 + r) % 2 ^ 32
  let t2 := if t.t2 > d then t.t2 ^^^ r else t.t2 ^^^ (t6 ^^^ d)
  let t1 :=
    if bootcode = 6105 then (t.t1 + (aux ^^^ d)) % 2 ^ 32
    else (t.t1 + (t5 ^^^ d)) % 2 ^ 32
  { t1 := t1, t2 := t2, t3 := t3, t4 := t4, t5 := t5, t6 := t6 }

/-- The `while` loop of `calculateChecksum`, from the index `i`; the index stays far
below `2 ^ 32` for the header constants and is a natural number here. -/
def checksumLoop (k : N64Constants) (rom : N64Rom) (bootcode : Nat) :
    Nat → Nat → ChecksumRegs → Option ChecksumRegs
  | 0, _, _ => none
  | fuel + 1, i, t =>
    if i < k.N64_ROM_CHECKSUM_START + k.N64_ROM_CHECKSUM_LENGTH then
      let d := rom.word i % 2 ^ 32
      let aux := rom.word (k.N64_ROM_HEADER_SIZE + 0x0710 + (i &&& 0xFF)) % 2 ^ 32
      checksumLoop k rom bootcode fuel (i + 4) (checksumBody k bootcode d aux t)
    else some t

/-- The seed `calculateChecksum` selects for a boot code, `none` for the `default`
branch of its `switch`. -/
def checksumSeed (k : N64Constants) (bootcode : Nat) : Option Nat :=
  if bootcode = 6101 ∨ bootcode = 7102 ∨ bootcode = 6102 then
    some (k.N64_ROM_CHECKSUM_CIC_6102 % 2 ^ 32)
  else if bootcode = 6103 then some (k.N64_ROM_CHECKSUM_CIC_6103 % 2 ^ 32)
  else if bootcode = 6105 then some (k.N64_ROM_CHECKSUM_CIC_6105 % 2 ^ 32)
  else if bootcode = 6106 then some (k.N64_ROM_CHECKSUM_CIC_6106 % 2 ^ 32)
  else none

/-- The two words `calculateChecksum` stores into `crc` after the loop. -/
def checksumWords (bootcode : Nat) (t : ChecksumRegs) : Nat × Nat :=
  if bootcode = 6103 then
    (((t.t6 ^^^ t.t4) + t.t3) % 2 ^ 32, ((t.t5 ^^^ t.t2) + t.t1) % 2 ^ 32)
  else if bootcode = 6106 then
    (((t.t6 * t.t4) + t.t3) % 2 ^ 32, ((t.t5 * t.t2) + t.t1) % 2 ^ 32)
  else
    (t.t6 ^^^ t.t4 ^^^ t.t3, t.t5 ^^^ t.t2 ^^^ t.t1)

/-- The function `N64RomFormat::calculateChecksum`: it is handed the two words of `crc`
as the caller left them and returns the status together with `crc` afterwards. -/
def calculateChecksum (k : N64Constants) (rom : N64Rom) (crc : Nat × Nat) :
    Option (Nat × (Nat × Nat)) :=
  let bootcode := getCICVersion k rom
  match checksumSeed k bootcode with
  | none => some (1, crc)
  | some seed =>
    let t : ChecksumRegs :=
      { t1 := seed, t2 := seed, t3 := seed, t4 := seed, t5 := seed, t6 := seed }
    match checksumLoop k rom bootcode (k.N64_ROM_CHECKSUM_LENGTH + 1)
        k.N64_ROM_CHECKSUM_START t with
    | none => none
    | some t => some (0, checksumWords bootcode t)

/-- The function `N64RomFormat::checkChecksum`; `crc` holds the indeterminate initial
contents of its local array. -/
def checkChecksum (k : N64Constants) (rom : N64Rom) (crc : Nat × Nat) : Option Bool :=
  match calculateChecksum k rom crc with
  | none => none
  | some (status, crc) =>
    if status = 0 then
      if crc.1 = rom.crc1 % 2 ^ 32 ∧ crc.2 = rom.crc2 % 2 ^ 32 then some true
      else some false
    else some false

/-- The words `d` the loop of `calculateChecksum` reads in `n` iterations from index
`i`. -/
def loopWords (rom : N64Rom) : Nat → Nat → List Nat
  | 0, _ => []
  | n + 1, i => rom.word i % 2 ^ 32 :: loopWords rom n (i + 4)

/-- The number of iterations of the loop of `calculateChecksum`. -/
def iterations (k : N64Constants) : Nat := (k.N64_ROM_CHECKSUM_LENGTH + 3) / 4

/-- The state of `t1 .. t6` after `n` iterations of the loop body from index `i`. -/
def checksumFold (k : N64Constants) (rom : N64Rom) (bootcode : Nat) :
    Nat → Nat → ChecksumRegs → ChecksumRegs
  | 0, _, t => t
  | n + 1, i, t =>
    checksumFold k rom bootcode n (i + 4)
      (checksumBody k bootcode (rom.word i % 2 ^ 32)
        (rom.word (k.N64_ROM_HEADER_SIZE + 0x0710 + (i &&& 0xFF)) % 2 ^ 32) t)

/-- The CIC version is one of those `calculateChecksum` has a seed for. -/
def recognised (bootcode : Nat) : Prop :=
  bootcode = 6101 ∨ bootcode = 7102 ∨ bootcode = 6102 ∨ bootcode = 6103 ∨
    bootcode = 6105 ∨ bootcode = 6106

instance (bootcode : Nat) : Decidable (recognised bootcode) := by
  unfold recognised; exact inferInstance

end N64RomFormat

/-! ## Concrete collaborators used to evaluate the embedding -/

/-- Scenario S4 of the spec: one code segment `[0x1000, 0x1003)`. -/
def exampleSegment : Segment := { address := 0x1000, size := 3, code := true }

/-- A loader that maps exactly the addresses of `exampleSegment`. -/
def exampleLoader : Loader :=
  { view := fun a => { eob := !(decide (0x1000 ≤ a) && decide (a < 0x1003)) }
    offsetValid := fun a => decide (0x1000 ≤ a) && decide (a < 0x1003) }

/-- An assembler that rejects every byte sequence, leaving `size` in the size field. -/
def failingEnv (size : Nat) : Env :=
  { segments := [exampleSegment]
    loader := exampleLoader
    decode := fun _ i => (false, { i with size := size }) }

/-- An assembler that decodes every byte as a one-byte `nop`. -/
def nopEnv : Env :=
  { segments := [exampleSegment]
    loader := exampleLoader
    decode := fun _ i => (true, { i with size := 1, type := InstructionType.Nop, mnemonic := "nop" }) }

/-- Scenario S5 of the spec: no target is recorded for any address, and the target
operand of every instruction is numeric or not according to `numeric`. -/
def exampleTargets (numeric : Bool) : TargetContext :=
  { getTargetsCount := fun _ => 0
    target := fun _ => some { numeric := numeric }
    quoted := fun text => "\"" ++ text ++ "\""
    hex := fun n => String.mk (Nat.toDigits 16 n) }

/-- A document with a code segment and a data segment next to it. -/
def twoSegmentEnv : Env :=
  { segments := [exampleSegment, { address := 0x1003, size := 5, code := false }]
    loader :=
      { view := fun a => { eob := !(decide (0x1000 ≤ a) && decide (a < 0x1008)) }
        offsetValid := fun a => decide (0x1000 ≤ a) && decide (a < 0x1008) }
    decode := fun _ i => (false, i) }

/-- Constants for evaluation: the seeds and boot code CRCs of the n64crc tool the source
is adapted from, a 32-bit rotate for `rol`, and a checksummed area of three words. -/
def exampleN64 : N64Constants :=
  { N64_ROM_HEADER_SIZE := 0x40
    N64_ROM_CHECKSUM_START := 0x1000
    N64_ROM_CHECKSUM_LENGTH := 12
    N64_ROM_CHECKSUM_CIC_6102 := 0xF8CA4DDC
    N64_ROM_CHECKSUM_CIC_6103 := 0xA3886759
    N64_ROM_CHECKSUM_CIC_6105 := 0xDF26F436
    N64_ROM_CHECKSUM_CIC_6106 := 0x1FEA617A
    N64_BOOT_CODE_CIC_6101_CRC := 0x6170A4A1
    N64_BOOT_CODE_CIC_7102_CRC := 0x009E9EA3
    N64_BOOT_CODE_CIC_6102_CRC := 0x90BB6CB5
    N64_BOOT_CODE_CIC_6103_CRC := 0x0B050EE0
    N64_BOOT_CODE_CIC_6105_CRC := 0x98BC2C86
    N64_BOOT_CODE_CIC_6106_CRC := 0xACC8580A
    rol := fun x n => ((x <<< n) ||| (x >>> (32 - n))) % 2 ^ 32 }

/-- A ROM whose every word is `0xFFFFFFFF`, with the given boot code CRC and header
fields. -/
def exampleRom (boot_code_crc program_counter crc1 crc2 : Nat) : N64Rom :=
  { word := fun _ => 0xFFFFFFFF
    boot_code_crc := boot_code_crc
    program_counter := program_counter
    crc1 := crc1
    crc2 := crc2
    country_code := 0x45 }

/-- The listing of `n` segment items at the addresses `0 .. n - 1`. -/
def segmentListing (n : Nat) : List ListingItem :=
  (List.range n).map (fun a => { address := a, type := ListingItem.SegmentItem })

namespace Listing

/-! ### Facts about the comparator -/

theorem comparator_iff (a b : ListingItem) :
    ListingComparator a b = true ↔
      (a.address < b.address ∨ (a.address = b.address ∧ a.type < b.type)) := by
  unfold ListingComparator
  by_cases h : a.address = b.address
  · simp [h]
  · simp [h]

theorem comparator_false_iff (a b : ListingItem) :
    ListingComparator a b = false ↔
      (b.address < a.address ∨ (a.address = b.address ∧ b.type ≤ a.type)) := by
  rw [← Bool.not_eq_true, comparator_iff]
  omega

theorem comparator_trans {a b c : ListingItem} (hab : ListingComparator a b = true)
    (hbc : ListingComparator b c = true) : ListingComparator a c = true := by
  rw [comparator_iff] at *
  omega

theorem sortedByAddress_of_strictlySorted {items : List ListingItem}
    (h : StrictlySorted items) : SortedByAddress items := by
  unfold StrictlySorted at h
  unfold SortedByAddress
  refine h.imp ?_
  intro a b hab
  rw [comparator_iff] at hab
  omega

theorem strictlySorted_getElem {items : List ListingItem} (h : StrictlySorted items)
    {i j : Nat} (hi : i < items.length) (hj : j < items.length) (hij : i < j) :
    ListingComparator items[i] items[j] = true :=
  List.pairwise_iff_getElem.mp h i j hi hj hij

theorem sortedByAddress_getElem {items : List ListingItem} (h : SortedByAddress items)
    {i j : Nat} (hi : i < items.length) (hj : j < items.length) (hij : i ≤ j) :
    items[i].address ≤ items[j].address := by
  rcases Nat.lt_or_eq_of_le hij with hlt | heq
  · exact List.pairwise_iff_getElem.mp h i j hi hj hlt
  · subst heq; exact Nat.le_refl _

/-! ### The lower bound -/

theorem lowerBoundLoop_spec {items : List ListingItem} (hs : StrictlySorted items)
    (val : ListingItem) :
    ∀ (fuel first len : Nat), len ≤ fuel → first + len ≤ items.length →
      (∀ j (h : j < items.length), j < first → ListingComparator items[j] val = true) →
      (∀ j (h : j < items.length), first + len ≤ j → ListingComparator items[j] val = false) →
      ∃ p, lowerBoundLoop items val fuel first len = some p ∧ p ≤ items.length ∧
        (∀ j (h : j < items.length), j < p → ListingComparator items[j] val = true) ∧
        (∀ j (h : j < items.length), p ≤ j → ListingComparator items[j] val = false) := by
  intro fuel
  induction fuel with
  | zero =>
    intro first len hlen hbound hlo hhi
    have hz : len = 0 := by omega
    subst hz
    exact ⟨first, by simp [lowerBoundLoop], by omega, hlo, by simpa using hhi⟩
  | succ fuel ih =>
    intro first len hlen hbound hlo hhi
    cases len with
    | zero => exact ⟨first, by simp [lowerBoundLoop], by omega, hlo, by simpa using hhi⟩
    | succ len =>
      have hhalf : (len + 1) / 2 ≤ len := by omega
      have hm : first + (len + 1) / 2 < items.length := by omega
      rw [lowerBoundLoop]
      simp only [List.getElem?_eq_getElem hm]
      by_cases hc : ListingComparator items[first + (len + 1) / 2] val = true
      · rw [if_pos hc]
        apply ih
        · omega
        · omega
        · intro j h hj
          by_cases hjm : j = first + (len + 1) / 2
          · subst hjm; exact hc
          · exact comparator_trans (strictlySorted_getElem hs h hm (by omega)) hc
        · intro j h hj
          exact hhi j h (by omega)
      · rw [if_neg hc]
        apply ih
        · omega
        · omega
        · exact hlo
        · intro j h hj
          have hmf : ListingComparator items[first + (len + 1) / 2] val = false := by
            simpa using hc
          by_cases hjm : j = first + (len + 1) / 2
          · subst hjm; exact hmf
          · have hlt := strictlySorted_getElem hs hm h (by omega)
            rw [comparator_iff] at hlt
            rw [comparator_false_iff] at hmf ⊢
            omega

theorem strictlySorted_insertAt {items : List ListingItem} (hs : StrictlySorted items)
    (val : ListingItem) (p : Nat) (hp : p ≤ items.length)
    (hlo : ∀ j (h : j < items.length), j < p → ListingComparator items[j] val = true)
    (hhi : ∀ j (h : j < items.length), p ≤ j → ListingComparator val items[j] = true) :
    StrictlySorted (insertAt items p val) := by
  unfold StrictlySorted insertAt
  have hsplit : (items.take p ++ items.drop p).Pairwise
      (fun a b => ListingComparator a b = true) := by
    rw [List.take_append_drop]; exact hs
  rw [List.pairwise_append] at hsplit
  obtain ⟨htake, hdrop, hcross⟩ := hsplit
  have hbefore : ∀ a ∈ items.take p, ListingComparator a val = true := by
    intro a ha
    obtain ⟨j, hj, rfl⟩ := List.getElem_of_mem ha
    rw [List.length_take] at hj
    rw [List.getElem_take]
    exact hlo j (by omega) (by omega)
  have hafter : ∀ b ∈ items.drop p, ListingComparator val b = true := by
    intro b hb
    obtain ⟨j, hj, rfl⟩ := List.getElem_of_mem hb
    rw [List.length_drop] at hj
    rw [List.getElem_drop]
    exact hhi (p + j) (by omega) (by omega)
  rw [List.pairwise_append]
  refine ⟨htake, ?_, ?_⟩
  · rw [List.pairwise_cons]
    exact ⟨hafter, hdrop⟩
  · intro a ha b hb
    rw [List.mem_cons] at hb
    rcases hb with rfl | hb
    · exact hbefore a ha
    · exact hcross a ha b hb

/-! ### The walk of `_adjustSearch` -/

theorem deref_natCast (items : List ListingItem) (n : Nat) :
    deref items (n : Int) = items[n]? := by
  simp [deref]

theorem searchOffset_eq_zero {t u : Nat} (ht : t < 2 ^ 32) (hu : u < 2 ^ 32)
    (h : searchOffset t u = 0) : t = u := by
  unfold searchOffset at h
  simp only at h
  split at h <;> omega

theorem searchOffset_pos {t u : Nat} (ht : t < 2 ^ 31) (hu : u < 2 ^ 31) (h : u < t) :
    0 < searchOffset t u := by
  unfold searchOffset
  simp only
  split <;> omega

theorem searchOffset_neg {t u : Nat} (ht : t < 2 ^ 31) (hu : u < 2 ^ 31) (h : t < u) :
    searchOffset t u < 0 := by
  unfold searchOffset
  simp only
  split <;> omega

theorem adjustLoop_step (items : List ListingItem) (type : Nat) (offset : Int) (a fuel : Nat)
    (it : Nat) (h : it < items.length) :
    adjustLoop items type offset a (fuel + 1) (it : Int) =
      if a = items[it].address then
        if items[it].type = type then some it
        else if offset < 0 ∧ it = 0 then some items.length
        else adjustLoop items type offset a fuel
          (if offset > 0 then (it : Int) + 1 else (it : Int) - 1)
      else some items.length := by
  have hne : ¬ ((it : Int) = (items.length : Int)) := by omega
  rw [adjustLoop, if_neg hne, deref_natCast, List.getElem?_eq_getElem h]
  simp

theorem adjustLoop_forward_absent {items : List ListingItem} (type a : Nat) (offset : Int)
    (hoff : 0 < offset) (habs : ∀ x ∈ items, ¬ (x.address = a ∧ x.type = type)) :
    ∀ (n fuel it : Nat), items.length - it = n → it ≤ items.length → n + 1 ≤ fuel →
      adjustLoop items type offset a fuel (it : Int) = some items.length := by
  intro n
  induction n with
  | zero =>
    intro fuel it hn hit hfuel
    obtain ⟨fuel, rfl⟩ : ∃ k, fuel = k + 1 := ⟨fuel - 1, by omega⟩
    have hend : (it : Int) = (items.length : Int) := by omega
    rw [adjustLoop, if_pos hend]
  | succ n ih =>
    intro fuel it hn hit hfuel
    obtain ⟨fuel, rfl⟩ : ∃ k, fuel = k + 1 := ⟨fuel - 1, by omega⟩
    have hlt : it < items.length := by omega
    rw [adjustLoop_step _ _ _ _ _ _ hlt]
    by_cases ha : a = items[it].address
    · have hty : ¬ items[it].type = type := fun hty =>
        habs _ (List.getElem_mem hlt) ⟨ha.symm, hty⟩
      have hbrk : ¬ (offset < 0 ∧ it = 0) := by omega
      rw [if_pos ha, if_neg hty, if_neg hbrk, if_pos hoff]
      have := ih fuel (it + 1) (by omega) (by omega) (by omega)
      simpa using this
    · rw [if_neg ha]

theorem adjustLoop_backward_absent {items : List ListingItem} (type a : Nat) (offset : Int)
    (hoff : offset < 0) (habs : ∀ x ∈ items, ¬ (x.address = a ∧ x.type = type)) :
    ∀ (it fuel : Nat), it < items.length → it + 1 ≤ fuel →
      adjustLoop items type offset a fuel (it : Int) = some items.length := by
  intro it
  induction it with
  | zero =>
    intro fuel hlt hfuel
    obtain ⟨fuel, rfl⟩ : ∃ k, fuel = k + 1 := ⟨fuel - 1, by omega⟩
    rw [adjustLoop_step _ _ _ _ _ _ hlt]
    by_cases ha : a = items[0].address
    · have hty : ¬ items[0].type = type := fun hty =>
        habs _ (List.getElem_mem hlt) ⟨ha.symm, hty⟩
      rw [if_pos ha, if_neg hty, if_pos ⟨hoff, rfl⟩]
    · rw [if_neg ha]
  | succ it ih =>
    intro fuel hlt hfuel
    obtain ⟨fuel, rfl⟩ : ∃ k, fuel = k + 1 := ⟨fuel - 1, by omega⟩
    rw [adjustLoop_step _ _ _ _ _ _ hlt]
    by_cases ha : a = items[it + 1].address
    · have hty : ¬ items[it + 1].type = type := fun hty =>
        habs _ (List.getElem_mem hlt) ⟨ha.symm, hty⟩
      have hbrk : ¬ (offset < 0 ∧ it + 1 = 0) := by omega
      have hpos : ¬ offset > 0 := by omega
      rw [if_pos ha, if_neg hty, if_neg hbrk, if_neg hpos]
      have := ih fuel (by omega) (by omega)
      simpa using this
    · rw [if_neg ha]

theorem adjustLoop_forward_present {items : List ListingItem} (type a : Nat) (offset : Int)
    (hoff : 0 < offset) (i : Nat) (hi : i < items.length)
    (haddr : items[i].address = a) (htype : items[i].type = type) :
    ∀ (n fuel it : Nat), i - it = n → it ≤ i → n + 1 ≤ fuel →
      (∀ j (h : j < items.length), it ≤ j → j < i → items[j].address = a ∧ items[j].type ≠ type) →
      adjustLoop items type offset a fuel (it : Int) = some i := by
  intro n
  induction n with
  | zero =>
    intro fuel it hn hit hfuel hmid
    obtain ⟨fuel, rfl⟩ : ∃ k, fuel = k + 1 := ⟨fuel - 1, by omega⟩
    have hii : it = i := by omega
    subst hii
    rw [adjustLoop_step _ _ _ _ _ _ hi, if_pos haddr.symm, if_pos htype]
  | succ n ih =>
    intro fuel it hn hit hfuel hmid
    obtain ⟨fuel, rfl⟩ : ∃ k, fuel = k + 1 := ⟨fuel - 1, by omega⟩
    have hlt : it < items.length := by omega
    obtain ⟨ha, hty⟩ := hmid it hlt (Nat.le_refl _) (by omega)
    have hbrk : ¬ (offset < 0 ∧ it = 0) := by omega
    rw [adjustLoop_step _ _ _ _ _ _ hlt, if_pos ha.symm, if_neg hty, if_neg hbrk, if_pos hoff]
    have := ih fuel (it + 1) (by omega) (by omega) (by omega)
      (fun j h h1 h2 => hmid j h (by omega) h2)
    simpa using this

theorem adjustLoop_backward_present {items : List ListingItem} (type a : Nat) (offset : Int)
    (hoff : offset < 0) (i : Nat) (hi : i < items.length)
    (haddr : items[i].address = a) (htype : items[i].type = type) :
    ∀ (n fuel it : Nat), it - i = n → i ≤ it → it < items.length → n + 1 ≤ fuel →
      (∀ j (h : j < items.length), i < j → j ≤ it → items[j].address = a ∧ items[j].type ≠ type) →
      adjustLoop items type offset a fuel (it : Int) = some i := by
  intro n
  induction n with
  | zero =>
    intro fuel it hn hit hlt hfuel hmid
    obtain ⟨fuel, rfl⟩ : ∃ k, fuel = k + 1 := ⟨fuel - 1, by omega⟩
    have hii : it = i := by omega
    subst hii
    rw [adjustLoop_step _ _ _ _ _ _ hi, if_pos haddr.symm, if_pos htype]
  | succ n ih =>
    intro fuel it hn hit hlt hfuel hmid
    obtain ⟨fuel, rfl⟩ : ∃ k, fuel = k + 1 := ⟨fuel - 1, by omega⟩
    obtain ⟨ha, hty⟩ := hmid it hlt (by omega) (Nat.le_refl _)
    have hbrk : ¬ (offset < 0 ∧ it = 0) := by omega
    have hpos : ¬ offset > 0 := by omega
    rw [adjustLoop_step _ _ _ _ _ _ hlt, if_pos ha.symm, if_neg hty, if_neg hbrk, if_neg hpos]
    have := ih fuel (it - 1) (by omega) (by omega) (by omega) (by omega)
      (fun j h h1 h2 => hmid j h h1 (by omega))
    have hcast : ((it - 1 : Nat) : Int) = (it : Int) - 1 := by omega
    rw [hcast] at this
    exact this

theorem adjustSearch_absent {items : List ListingItem} (type : Nat) (ht : type < 2 ^ 32)
    (hu : ∀ x ∈ items, ListingItem.fitsU32 x) (m : Nat) (hm : m < items.length)
    (habs : ∀ x ∈ items, ¬ (x.address = items[m].address ∧ x.type = type)) :
    _adjustSearch items (m : Int) type = some items.length := by
  unfold _adjustSearch
  rw [deref_natCast, List.getElem?_eq_getElem hm]
  simp only
  have hne : type ≠ items[m].type := fun h =>
    habs _ (List.getElem_mem hm) ⟨rfl, h.symm⟩
  have hfit : items[m].type < 2 ^ 32 := hu _ (List.getElem_mem hm)
  have hoff : searchOffset type items[m].type ≠ 0 := fun h =>
    hne (searchOffset_eq_zero ht hfit h)
  rcases lt_or_gt_of_ne hoff with hneg | hpos
  · exact adjustLoop_backward_absent type _ _ hneg habs m _ hm (by omega)
  · exact adjustLoop_forward_absent type _ _ hpos habs _ _ m rfl (by omega) (by omega)

theorem adjustSearch_present {items : List ListingItem} (hs : StrictlySorted items)
    (hsmall : ∀ x ∈ items, x.type < 2 ^ 31) (i : Nat) (hi : i < items.length)
    (m : Nat) (hm : m < items.length) (hma : items[m].address = items[i].address) :
    _adjustSearch items (m : Int) items[i].type = some i := by
  unfold _adjustSearch
  rw [deref_natCast, List.getElem?_eq_getElem hm]
  simp only
  have hsa := sortedByAddress_of_strictlySorted hs
  have hti : items[i].type < 2 ^ 31 := hsmall _ (List.getElem_mem hi)
  have htm : items[m].type < 2 ^ 31 := hsmall _ (List.getElem_mem hm)
  rcases Nat.lt_trichotomy m i with hlt | heq | hgt
  · have hcmp := strictlySorted_getElem hs hm hi hlt
    rw [comparator_iff] at hcmp
    have hoff := searchOffset_pos hti htm (by omega)
    refine adjustLoop_forward_present _ _ _ hoff i hi hma.symm rfl _ _ m rfl (by omega)
      (by omega) ?_
    intro j h h1 h2
    have h3 := sortedByAddress_getElem hsa hm h h1
    have h4 := strictlySorted_getElem hs h hi h2
    rw [comparator_iff] at h4
    omega
  · subst heq
    rw [adjustLoop_step _ _ _ _ _ _ hm, if_pos rfl, if_pos rfl]
  · have hcmp := strictlySorted_getElem hs hi hm hgt
    rw [comparator_iff] at hcmp
    have hoff := searchOffset_neg hti htm (by omega)
    refine adjustLoop_backward_present _ _ _ hoff i hi hma.symm rfl _ _ m rfl (by omega) hm
      (by omega) ?_
    intro j h h1 h2
    have h3 := sortedByAddress_getElem hsa h hm h2
    have h4 := strictlySorted_getElem hs hi h h1
    rw [comparator_iff] at h4
    omega

/-! ### The halving loop of `binarySearch` -/

theorem searchLoop_spec {items : List ListingItem} (hsa : SortedByAddress items)
    (address type : Nat) (hpos : 0 < items.length)
    (hlast : address ≤ (items[items.length - 1]).address) :
    ∀ (fuel : Nat) (b e : Int), 0 ≤ b → e ≤ (items.length : Int) → b ≤ e + 1 →
      e + 2 ≤ b + (fuel : Int) →
      (∀ j (h : j < items.length), (j : Int) < b → items[j].address < address) →
      (∀ j (h : j < items.length), e < (j : Int) → address < items[j].address) →
      (∃ m, ∃ h : m < items.length, items[m].address = address ∧
          searchLoop items address type fuel b e = _adjustSearch items (m : Int) type) ∨
        ((∀ x ∈ items, x.address ≠ address) ∧
          searchLoop items address type fuel b e = some items.length) := by
  intro fuel
  induction fuel with
  | zero =>
    intro b e hb he hbe1 hfuel hlo hhi
    omega
  | succ fuel ih =>
    intro b e hb he hbe1 hfuel hlo hhi
    rw [searchLoop]
    by_cases hbe : b ≤ e
    · rw [if_pos hbe]
      have hdiv : Int.tdiv (e - b) 2 = (e - b) / 2 := Int.tdiv_eq_ediv (by omega) (by decide)
      simp only [hdiv]
      have hblt : b < (items.length : Int) := by
        by_contra hcon
        have h1 := hlo (items.length - 1) (by omega) (by omega)
        omega
      obtain ⟨m, hmeq⟩ : ∃ m : Nat, (m : Int) = b + (e - b) / 2 :=
        ⟨(b + (e - b) / 2).toNat, by omega⟩
      have hm : m < items.length := by omega
      rw [← hmeq, deref_natCast, List.getElem?_eq_getElem hm]
      simp only
      by_cases heq : items[m].address = address
      · rw [if_pos heq]
        exact Or.inl ⟨m, hm, heq, rfl⟩
      · rw [if_neg heq]
        by_cases hgt : items[m].address > address
        · rw [if_pos hgt]
          apply ih
          · exact hb
          · omega
          · omega
          · omega
          · exact hlo
          · intro j h hj
            have := sortedByAddress_getElem hsa hm h (by omega)
            omega
        · rw [if_neg hgt]
          have hlt : items[m].address < address := by omega
          rw [if_pos hlt]
          apply ih
          · omega
          · exact he
          · omega
          · omega
          · intro j h hj
            have := sortedByAddress_getElem hsa h hm (by omega)
            omega
          · exact hhi
    · rw [if_neg hbe]
      refine Or.inr ⟨?_, rfl⟩
      intro x hx
      obtain ⟨j, hj, rfl⟩ := List.getElem_of_mem hx
      by_cases hjb : (j : Int) < b
      · have := hlo j hj hjb
        omega
      · have := hhi j hj (by omega)
        omega

theorem binarySearch_unfold {items : List ListingItem} (hpos : 0 < items.length)
    (address type : Nat) :
    binarySearch items address type =
      if address < items[0].address ∨ address > (items[items.length - 1]).address then
        some items.length
      else searchLoop items address type (items.length + 2) 0 items.length := by
  unfold binarySearch
  have hne : ¬ items.length = 0 := by omega
  rw [if_neg hne, List.head?_eq_getElem?, List.getLast?_eq_getElem?,
    List.getElem?_eq_getElem hpos, List.getElem?_eq_getElem (by omega)]

theorem binarySearch_cases {items : List ListingItem} (hsa : SortedByAddress items)
    (address type : Nat) :
    (∃ m, ∃ h : m < items.length, items[m].address = address ∧
        binarySearch items address type = _adjustSearch items (m : Int) type) ∨
      ((∀ x ∈ items, x.address ≠ address) ∧
        binarySearch items address type = some items.length) := by
  by_cases hpos : 0 < items.length
  · rw [binarySearch_unfold hpos]
    by_cases hguard : address < items[0].address ∨ address > (items[items.length - 1]).address
    · rw [if_pos hguard]
      refine Or.inr ⟨?_, rfl⟩
      intro x hx
      obtain ⟨j, hj, rfl⟩ := List.getElem_of_mem hx
      have h1 := sortedByAddress_getElem hsa hpos hj (Nat.zero_le _)
      have h2 := sortedByAddress_getElem hsa hj (show items.length - 1 < items.length by omega)
        (by omega)
      omega
    · rw [if_neg hguard]
      apply searchLoop_spec hsa address type hpos (by omega)
      · exact Int.le_refl _
      · exact Int.le_refl _
      · omega
      · push_cast; omega
      · intro j h hj; omega
      · intro j h hj; omega
  · have hnil : items = [] := List.eq_nil_of_length_eq_zero (by omega)
    subst hnil
    exact Or.inr ⟨by simp, by simp [binarySearch]⟩

/-! ### Lookup of a present key, lookup of an absent key -/

theorem toInt32_of_lt {n : Nat} (h : n < 2 ^ 31) : toInt32 n = (n : Int) := by
  unfold toInt32
  simp only
  have hmod : n % 2 ^ 32 = n := Nat.mod_eq_of_lt (by omega)
  rw [hmod, if_pos h]

theorem isItemKind_small {items : List ListingItem}
    (hk : ∀ x ∈ items, ListingItem.isItemKind x.type) : ∀ x ∈ items, x.type < 2 ^ 31 := by
  intro x hx
  have := (hk x hx).2
  unfold ListingItem.InstructionItem at this
  omega

theorem binarySearch_of_small {items : List ListingItem} (hs : StrictlySorted items)
    (hsmall : ∀ x ∈ items, x.type < 2 ^ 31) (i : Nat) (hi : i < items.length) :
    binarySearch items items[i].address items[i].type = some i := by
  rcases binarySearch_cases (sortedByAddress_of_strictlySorted hs)
      items[i].address items[i].type with ⟨m, hm, hma, heq⟩ | ⟨hnone, _⟩
  · rw [heq]
    exact adjustSearch_present hs hsmall i hi m hm hma
  · exact absurd rfl (hnone _ (List.getElem_mem hi))

theorem indexOf_of_found {items : List ListingItem} {address type i : Nat}
    (hfound : binarySearch items address type = some i) (hi : i < items.length) :
    indexOf items address type = some (toInt32 i) := by
  unfold indexOf
  rw [hfound]
  have hne : ¬ i = items.length := by omega
  simp only [if_neg hne]

theorem binarySearch_at_of_small {items : List ListingItem} (hs : StrictlySorted items)
    (hsmall : ∀ x ∈ items, x.type < 2 ^ 31) (i : Nat) (x : ListingItem)
    (hx : items[i]? = some x) :
    i < items.length ∧ binarySearch items x.address x.type = some i := by
  obtain ⟨hi, rfl⟩ := List.getElem?_eq_some.mp hx
  exact ⟨hi, binarySearch_of_small hs hsmall i hi⟩

/-! ### The listing of `n` segment items -/

theorem length_segmentListing (n : Nat) : (segmentListing n).length = n := by
  unfold segmentListing
  rw [List.length_map, List.length_range]

theorem getElem?_segmentListing (n i : Nat) (h : i < n) :
    (segmentListing n)[i]? = some { address := i, type := ListingItem.SegmentItem } := by
  unfold segmentListing
  rw [List.getElem?_map, List.getElem?_range h]
  rfl

theorem mem_segmentListing {n : Nat} {x : ListingItem} (hx : x ∈ segmentListing n) :
    x.address < n ∧ x.type = ListingItem.SegmentItem := by
  unfold segmentListing at hx
  rw [List.mem_map] at hx
  obtain ⟨a, ha, rfl⟩ := hx
  exact ⟨List.mem_range.mp ha, rfl⟩

theorem strictlySorted_segmentListing (n : Nat) : StrictlySorted (segmentListing n) := by
  unfold StrictlySorted segmentListing
  rw [List.pairwise_map]
  refine List.Pairwise.imp ?_ (List.pairwise_lt_range n)
  intro a b hab
  rw [comparator_iff]
  exact Or.inl hab

theorem isItemKind_segmentListing (n : Nat) :
    ∀ x ∈ segmentListing n, ListingItem.isItemKind x.type := by
  intro x hx
  rw [(mem_segmentListing hx).2]
  decide

/-- C1, as amended: in a strictly sorted container whose item types are the listing kinds
`SegmentItem .. InstructionItem`, searching for the key of the item at index `i`
returns the position `i`, and `indexOf` returns `i` converted to `int`, which is `i`
for every index below `2 ^ 31`. -/
theorem binarySearch_indexOf_present (items : List ListingItem)
    (hs : StrictlySorted items) (hk : ∀ x ∈ items, ListingItem.isItemKind x.type)
    (i : Nat) (hi : i < items.length) :
    binarySearch items items[i].address items[i].type = some i ∧
      indexOf items items[i].address items[i].type = some (toInt32 i) ∧
      (i < 2 ^ 31 → indexOf items items[i].address items[i].type = some (i : Int)) := by
  have hfound := binarySearch_of_small hs (isItemKind_small hk) i hi
  have hidx := indexOf_of_found hfound hi
  refine ⟨hfound, hidx, ?_⟩
  intro hlt
  rw [hidx, toInt32_of_lt hlt]

/-- Witness of C1 on a five-item listing with three items at one address. -/
theorem binarySearch_indexOf_present_witness :
    StrictlySorted [⟨1, 1⟩, ⟨1, 5⟩, ⟨1, 6⟩, ⟨4, 6⟩, ⟨7, 1⟩] ∧
      binarySearch [⟨1, 1⟩, ⟨1, 5⟩, ⟨1, 6⟩, ⟨4, 6⟩, ⟨7, 1⟩] 1 6 = some 2 ∧
      indexOf [⟨1, 1⟩, ⟨1, 5⟩, ⟨1, 6⟩, ⟨4, 6⟩, ⟨7, 1⟩] 1 6 = some 2 :=
  ⟨by decide,
    (binarySearch_indexOf_present [⟨1, 1⟩, ⟨1, 5⟩, ⟨1, 6⟩, ⟨4, 6⟩, ⟨7, 1⟩]
      (by decide) (by decide) 2 (by decide)).1,
    (binarySearch_indexOf_present [⟨1, 1⟩, ⟨1, 5⟩, ⟨1, 6⟩, ⟨4, 6⟩, ⟨7, 1⟩]
      (by decide) (by decide) 2 (by decide)).2.2 (by decide)⟩

/-- Counterexample to C1 as stated: the listing of `2 ^ 31 + 1` segment items at the
addresses `0 .. 2 ^ 31` is strictly sorted and of listing kinds; for the index
`2 ^ 31`, `binarySearch` returns the position `2 ^ 31`, and `indexOf`, whose result is
an `int`, returns `-2 ^ 31`. -/
theorem binarySearch_indexOf_present_counterexample :
    StrictlySorted (segmentListing (2 ^ 31 + 1)) ∧
      (∀ x ∈ segmentListing (2 ^ 31 + 1), ListingItem.isItemKind x.type) ∧
      (segmentListing (2 ^ 31 + 1))[2 ^ 31]? =
        some { address := 2 ^ 31, type := ListingItem.SegmentItem } ∧
      binarySearch (segmentListing (2 ^ 31 + 1)) (2 ^ 31) ListingItem.SegmentItem =
        some (2 ^ 31) ∧
      indexOf (segmentListing (2 ^ 31 + 1)) (2 ^ 31) ListingItem.SegmentItem =
        some (-2147483648) := by
  have hs := strictlySorted_segmentListing (2 ^ 31 + 1)
  have hk := isItemKind_segmentListing (2 ^ 31 + 1)
  have hx := getElem?_segmentListing (2 ^ 31 + 1) (2 ^ 31) (by omega)
  obtain ⟨hi, hfound⟩ := binarySearch_at_of_small hs (isItemKind_small hk) (2 ^ 31)
    { address := 2 ^ 31, type := ListingItem.SegmentItem } hx
  refine ⟨hs, hk, hx, hfound, ?_⟩
  rw [indexOf_of_found hfound hi]
  rfl

/-- C2: in a strictly sorted container (the empty one included) of `u32`-typed items,
searching for a `u32`-typed key that no item has returns `end()`, and `indexOf`
returns `-1`; the address may lie below the first item, above the last, between two
items, or be present without an item of the requested type. -/
theorem binarySearch_indexOf_absent (items : List ListingItem)
    (hs : StrictlySorted items) (hu : ∀ x ∈ items, ListingItem.fitsU32 x)
    (address type : Nat) (ht : type < 2 ^ 32)
    (habs : ∀ x ∈ items, ¬ (x.address = address ∧ x.type = type)) :
    binarySearch items address type = some items.length ∧
      indexOf items address type = some (-1) := by
  have hend : binarySearch items address type = some items.length := by
    rcases binarySearch_cases (sortedByAddress_of_strictlySorted hs)
        address type with ⟨m, hm, hma, heq⟩ | ⟨_, heq⟩
    · rw [heq]
      apply adjustSearch_absent type ht hu m hm
      rw [hma]
      exact habs
    · exact heq
  refine ⟨hend, ?_⟩
  unfold indexOf
  rw [hend]
  simp

/-- Witness of C2: an address that is present, with no item of the requested type. -/
theorem binarySearch_indexOf_absent_witness :
    StrictlySorted [⟨1, 1⟩, ⟨1, 5⟩, ⟨1, 6⟩, ⟨4, 6⟩, ⟨7, 1⟩] ∧
      binarySearch [⟨1, 1⟩, ⟨1, 5⟩, ⟨1, 6⟩, ⟨4, 6⟩, ⟨7, 1⟩] 4 5 = some 5 ∧
      indexOf [⟨1, 1⟩, ⟨1, 5⟩, ⟨1, 6⟩, ⟨4, 6⟩, ⟨7, 1⟩] 4 5 = some (-1) :=
  ⟨by decide,
    binarySearch_indexOf_absent [⟨1, 1⟩, ⟨1, 5⟩, ⟨1, 6⟩, ⟨4, 6⟩, ⟨7, 1⟩]
      (by decide) (by decide) 4 5 (by decide) (by decide)⟩

/-- The four ways a key can be absent, and the empty container: the address is below
the first item, above the last, between two items, or present without the type. -/
theorem indexOf_absent_examples :
    indexOf [⟨2, 1⟩, ⟨2, 6⟩, ⟨4, 6⟩, ⟨7, 1⟩] 1 6 = some (-1) ∧
      indexOf [⟨2, 1⟩, ⟨2, 6⟩, ⟨4, 6⟩, ⟨7, 1⟩] 9 6 = some (-1) ∧
      indexOf [⟨2, 1⟩, ⟨2, 6⟩, ⟨4, 6⟩, ⟨7, 1⟩] 5 6 = some (-1) ∧
      indexOf [⟨2, 1⟩, ⟨2, 6⟩, ⟨4, 6⟩, ⟨7, 1⟩] 2 5 = some (-1) ∧
      indexOf [⟨2, 1⟩, ⟨2, 6⟩, ⟨4, 6⟩, ⟨7, 1⟩] 7 ListingItem.AllItems = some (-1) ∧
      indexOf [] 2 5 = some (-1) := by
  decide

/-- C3: `ListingComparator` is the strict lexicographic order on (address, type), the
type discriminators are ordered Segment < Empty < Info < Function < Symbol <
Instruction, and the order is irreflexive, transitive, and total on distinct keys
(exactly one of two items with different keys precedes the other). -/
theorem listingComparator_strict_lexicographic :
    (∀ a b : ListingItem, ListingComparator a b = true ↔
        (a.address < b.address ∨ (a.address = b.address ∧ a.type < b.type))) ∧
      (ListingItem.SegmentItem < ListingItem.EmptyItem ∧
        ListingItem.EmptyItem < ListingItem.InfoItem ∧
        ListingItem.InfoItem < ListingItem.FunctionItem ∧
        ListingItem.FunctionItem < ListingItem.SymbolItem ∧
        ListingItem.SymbolItem < ListingItem.InstructionItem) ∧
      (∀ a : ListingItem, ListingComparator a a = false) ∧
      (∀ a b c : ListingItem, ListingComparator a b = true → ListingComparator b c = true →
        ListingComparator a c = true) ∧
      (∀ a b : ListingItem, (a.address ≠ b.address ∨ a.type ≠ b.type) →
        ((ListingComparator a b = true ∧ ListingComparator b a = false) ∨
          (ListingComparator a b = false ∧ ListingComparator b a = true))) := by
  refine ⟨comparator_iff, by decide, ?_, ?_, ?_⟩
  · intro a
    rw [comparator_false_iff]
    omega
  · intro a b c hab hbc
    exact comparator_trans hab hbc
  · intro a b hne
    rw [comparator_iff, comparator_iff, comparator_false_iff, comparator_false_iff]
    omega

/-- C4: in a strictly sorted container `insertionPoint` returns the lower bound of the
key of the item: every item before the position is less than it, no item from the
position on is less than it; and when the key is absent, inserting the item at that
position gives a strictly sorted container again. -/
theorem insertionPoint_lower_bound (items : List ListingItem) (hs : StrictlySorted items)
    (item : ListingItem) :
    ∃ p, insertionPoint items item = some p ∧ p ≤ items.length ∧
      (∀ j (h : j < items.length), j < p → ListingComparator items[j] item = true) ∧
      (∀ j (h : j < items.length), p ≤ j → ListingComparator items[j] item = false) ∧
      ((∀ x ∈ items, ¬ (x.address = item.address ∧ x.type = item.type)) →
        StrictlySorted (insertAt items p item)) := by
  obtain ⟨p, hp, hle, hlo, hhi⟩ :=
    lowerBoundLoop_spec hs item items.length 0 items.length (Nat.le_refl _) (by omega)
      (fun j _ hj => absurd hj (Nat.not_lt_zero j))
      (fun j h hj => absurd h (by omega))
  refine ⟨p, hp, hle, hlo, hhi, ?_⟩
  intro habs
  apply strictlySorted_insertAt hs item p hle hlo
  intro j h hj
  have h1 := hhi j h hj
  have h2 := habs _ (List.getElem_mem h)
  rw [comparator_false_iff] at h1
  rw [comparator_iff]
  omega

/-- Witness of C4: the lower bound of the key (4, 1) in a five-item listing. -/
theorem insertionPoint_lower_bound_witness :
    StrictlySorted [⟨1, 1⟩, ⟨1, 5⟩, ⟨1, 6⟩, ⟨4, 6⟩, ⟨7, 1⟩] ∧
      insertionPoint [⟨1, 1⟩, ⟨1, 5⟩, ⟨1, 6⟩, ⟨4, 6⟩, ⟨7, 1⟩] ⟨4, 1⟩ = some 3 ∧
      ∃ p, insertionPoint [⟨1, 1⟩, ⟨1, 5⟩, ⟨1, 6⟩, ⟨4, 6⟩, ⟨7, 1⟩] ⟨4, 1⟩ = some p ∧
        p ≤ 5 ∧
        StrictlySorted (insertAt [⟨1, 1⟩, ⟨1, 5⟩, ⟨1, 6⟩, ⟨4, 6⟩, ⟨7, 1⟩] p ⟨4, 1⟩) := by
  refine ⟨by decide, by decide, ?_⟩
  obtain ⟨p, hp, hle, _, _, hins⟩ :=
    insertionPoint_lower_bound [⟨1, 1⟩, ⟨1, 5⟩, ⟨1, 6⟩, ⟨4, 6⟩, ⟨7, 1⟩] (by decide) ⟨4, 1⟩
  exact ⟨p, hp, hle, hins (by decide)⟩

end Listing

namespace AlgorithmImpl

/-! ### Frame of `canBeDisassembled` and `disassembleInstruction` -/

theorem canBeDisassembled_frame (env : Env) (address : Nat) (s : AlgorithmImpl) :
    ∃ seg, (canBeDisassembled env address s).2 = { s with m_currentsegment := seg } := by
  unfold canBeDisassembled
  simp only
  split
  · exact ⟨s.m_currentsegment, rfl⟩
  · cases hcur : s.m_currentsegment with
    | none =>
      simp only
      refine ⟨segment env address, ?_⟩
      split
      · rfl
      · split <;> [rfl; (split <;> rfl)]
    | some seg =>
      simp only
      by_cases hc : (!seg.contains address) = true
      · simp only [hc, if_true]
        refine ⟨segment env address, ?_⟩
        split
        · rfl
        · split <;> [rfl; (split <;> rfl)]
      · simp only [hc]
        refine ⟨some seg, ?_⟩
        have hs : ({ s with m_currentsegment := some seg } : AlgorithmImpl) = s := by
          cases s; simp_all
        rw [hs]
        simp only [Bool.false_eq_true, if_false, hcur]
        split <;> [rfl; (split <;> rfl)]

theorem canBeDisassembled_done (env : Env) (address : Nat) (s : AlgorithmImpl) :
    (canBeDisassembled env address s).2.m_done = s.m_done := by
  obtain ⟨seg, h⟩ := canBeDisassembled_frame env address s
  rw [h]

theorem canBeDisassembled_trace (env : Env) (address : Nat) (s : AlgorithmImpl) :
    (canBeDisassembled env address s).2.trace = s.trace := by
  obtain ⟨seg, h⟩ := canBeDisassembled_frame env address s
  rw [h]

theorem canBeDisassembled_symbols (env : Env) (address : Nat) (s : AlgorithmImpl) :
    (canBeDisassembled env address s).2.symbols = s.symbols := by
  obtain ⟨seg, h⟩ := canBeDisassembled_frame env address s
  rw [h]

theorem disassembleInstruction_skip (env : Env) (address : Nat) (instruction : Instruction)
    (s : AlgorithmImpl) (h : (canBeDisassembled env address s).1 = false) :
    disassembleInstruction env address instruction s =
      (Algorithm.SKIP, instruction, (canBeDisassembled env address s).2) := by
  unfold disassembleInstruction
  rcases hc : canBeDisassembled env address s with ⟨b, s1⟩
  rw [hc] at h
  simp only at h
  subst h
  rfl

theorem disassembleInstruction_go (env : Env) (address : Nat) (instruction : Instruction)
    (s : AlgorithmImpl) (h : (canBeDisassembled env address s).1 = true) :
    disassembleInstruction env address instruction s =
      ((if (env.decode (env.loader.view address)
            { instruction with address := address }).1 then Algorithm.OK else Algorithm.FAIL),
        (env.decode (env.loader.view address) { instruction with address := address }).2,
        (afterErase (canBeDisassembled env address s).2 address).log
          (Event.decode (env.loader.view address) { instruction with address := address })) := by
  unfold disassembleInstruction afterErase
  rcases hc : canBeDisassembled env address s with ⟨b, s1⟩
  rw [hc] at h
  simp only at h
  subst h
  simp only
  rcases hd : env.decode (env.loader.view address) { instruction with address := address }
    with ⟨r, i2⟩
  cases r <;> rfl

theorem disassemble_not_done (env : Env) (q : Hooks) (address : Nat)
    (instruction : Instruction) (s : AlgorithmImpl) (h : address ∉ s.m_done) :
    disassemble env q address instruction s =
      if (canBeDisassembled env address (done address s)).1 = true then
        if (env.decode (env.loader.view address) { instruction with address := address }).1
            = true then
          (Algorithm.OK,
            (env.decode (env.loader.view address) { instruction with address := address }).2,
            q.onDecoded
              (env.decode (env.loader.view address) { instruction with address := address }).2
              (((afterErase (canBeDisassembled env address (done address s)).2 address).log
                  (Event.decode (env.loader.view address)
                    { instruction with address := address })).log
                (Event.onDecoded (env.decode (env.loader.view address)
                  { instruction with address := address }).2)))
        else
          (Algorithm.FAIL,
            createInvalidInstruction
              (env.decode (env.loader.view address) { instruction with address := address }).2,
            q.onDecodeFailed
              (createInvalidInstruction (env.decode (env.loader.view address)
                { instruction with address := address }).2)
              (((afterErase (canBeDisassembled env address (done address s)).2 address).log
                  (Event.decode (env.loader.view address)
                    { instruction with address := address })).log
                (Event.onDecodeFailed (createInvalidInstruction
                  (env.decode (env.loader.view address)
                    { instruction with address := address }).2))))
      else
        (Algorithm.SKIP, instruction,
          q.onDecoded instruction
            ((canBeDisassembled env address (done address s)).2.log
              (Event.onDecoded instruction))) := by
  unfold disassemble
  rw [if_neg h]
  by_cases hc : (canBeDisassembled env address (done address s)).1 = true
  · rw [if_pos hc, disassembleInstruction_go env address instruction _ hc]
    by_cases hd : (env.decode (env.loader.view address)
        { instruction with address := address }).1 = true
    · rw [if_pos hd]
      simp only [hd, if_true, emulate]
    · rw [if_neg hd]
      simp only [hd]
      rfl
  · rw [if_neg hc]
    have hc2 : (canBeDisassembled env address (done address s)).1 = false := by
      simpa using hc
    rw [disassembleInstruction_skip env address instruction _ hc2]
    simp only [emulate]

theorem afterErase_done (s : AlgorithmImpl) (address : Nat) :
    (afterErase s address).m_done = s.m_done := by
  unfold afterErase
  split
  · split <;> rfl
  · rfl

theorem afterErase_decoded (s : AlgorithmImpl) (address : Nat) :
    decodedAddresses (afterErase s address).trace = decodedAddresses s.trace := by
  unfold afterErase
  split
  · split
    · simp [eraseSymbol, decodedAddresses, List.filterMap_append]
    · rfl
  · rfl

theorem afterErase_hookEvents (s : AlgorithmImpl) (address : Nat) :
    hookEvents (afterErase s address).trace = hookEvents s.trace := by
  unfold afterErase
  split
  · split
    · simp [eraseSymbol, hookEvents, List.filter_append]
    · rfl
  · rfl

theorem canBeDisassembled_after_done (env : Env) (address a : Nat) (s : AlgorithmImpl) :
    (canBeDisassembled env address (done a s)).1 = (canBeDisassembled env address s).1 := by
  obtain ⟨d, cs, sy, tr⟩ := s
  cases cs with
  | none =>
    simp only [canBeDisassembled, done]
    split
    · rfl
    · cases segment env address with
      | none => rfl
      | some seg => simp only; split <;> [rfl; (split <;> rfl)]
  | some seg =>
    simp only [canBeDisassembled, done]
    split
    · rfl
    · by_cases hc : (!seg.contains address) = true
      · simp only [hc, if_true]
        cases segment env address with
        | none => rfl
        | some seg2 => simp only; split <;> [rfl; (split <;> rfl)]
      · simp only [hc]
        simp only [Bool.false_eq_true, if_false]
        split <;> [rfl; (split <;> rfl)]

theorem decodedAddresses_log (s : AlgorithmImpl) (e : Event) :
    decodedAddresses (s.log e).trace =
      decodedAddresses s.trace ++ decodedAddresses [e] := by
  simp [log, decodedAddresses, List.filterMap_append]

theorem hookEvents_log (s : AlgorithmImpl) (e : Event) :
    hookEvents (s.log e).trace = hookEvents s.trace ++ hookEvents [e] := by
  simp [log, hookEvents, List.filter_append]

/-! ### The done set short-circuits -/

theorem disassemble_of_done (env : Env) (q : Hooks) (address : Nat)
    (instruction : Instruction) (s : AlgorithmImpl) (h : address ∈ s.m_done) :
    disassemble env q address instruction s = (Algorithm.SKIP, instruction, s) := by
  unfold disassemble
  rw [if_pos h]

/-- C5: for an address already in the done set, `disassemble` returns `SKIP` with the
instruction and the whole state as they were: same done set, same symbols, nothing
added to the record of calls (no decode, no erased symbol, no hook). -/
theorem disassemble_done_is_skip (env : Env) (q : Hooks) (address : Nat)
    (instruction : Instruction) (s : AlgorithmImpl) (h : address ∈ s.m_done) :
    disassemble env q address instruction s = (Algorithm.SKIP, instruction, s) ∧
      (disassemble env q address instruction s).2.2.m_done = s.m_done ∧
      (disassemble env q address instruction s).2.2.symbols = s.symbols ∧
      (disassemble env q address instruction s).2.2.trace = s.trace := by
  rw [disassemble_of_done env q address instruction s h]
  exact ⟨rfl, rfl, rfl, rfl⟩

/-- Witness of C5: a second call at `0x1000` after the first one marked it done. -/
theorem disassemble_done_is_skip_witness :
    0x1000 ∈ (disassemble nopEnv silent 0x1000 {} (init [])).2.2.m_done ∧
      disassemble nopEnv silent 0x1000 { size := 7 }
          (disassemble nopEnv silent 0x1000 {} (init [])).2.2 =
        (Algorithm.SKIP, { size := 7 }, (disassemble nopEnv silent 0x1000 {} (init [])).2.2) :=
  ⟨by decide,
    (disassemble_done_is_skip nopEnv silent 0x1000 { size := 7 }
      (disassemble nopEnv silent 0x1000 {} (init [])).2.2 (by decide)).1⟩

/-! ### Decode happens at most once per address -/

theorem disassemble_decodedOnce (env : Env) (q : Hooks) (address : Nat)
    (instruction : Instruction) (s : AlgorithmImpl)
    (hq1 : ∀ i t, DecodedOnce t → DecodedOnce (q.onDecoded i t))
    (hq2 : ∀ i t, DecodedOnce t → DecodedOnce (q.onDecodeFailed i t))
    (hs : DecodedOnce s) : DecodedOnce (disassemble env q address instruction s).2.2 := by
  by_cases hd : address ∈ s.m_done
  · rw [disassemble_of_done env q address instruction s hd]
    exact hs
  · rw [disassemble_not_done env q address instruction s hd]
    have hfresh : address ∉ decodedAddresses s.trace := fun hmem => hd (hs.2 _ hmem)
    have hdone : ∀ a ∈ s.m_done, a ∈ (done address s).m_done := by
      intro a ha
      simp only [done]
      exact List.mem_insert_of_mem ha
    have hself : address ∈ (done address s).m_done := by
      simp only [done]
      exact List.mem_insert_self _ _
    have hskip : DecodedOnce (canBeDisassembled env address (done address s)).2 := by
      refine ⟨?_, ?_⟩
      · rw [canBeDisassembled_trace]; exact hs.1
      · rw [canBeDisassembled_trace, canBeDisassembled_done]
        exact fun a ha => hdone a (hs.2 a ha)
    have hgo : DecodedOnce ((afterErase (canBeDisassembled env address (done address s)).2
        address).log (Event.decode (env.loader.view address)
          { instruction with address := address })) := by
      have htr : decodedAddresses ((afterErase (canBeDisassembled env address (done address s)).2
          address).log (Event.decode (env.loader.view address)
            { instruction with address := address })).trace
          = decodedAddresses s.trace ++ [address] := by
        rw [decodedAddresses_log, afterErase_decoded, canBeDisassembled_trace]
        rfl
      refine ⟨?_, ?_⟩
      · rw [htr]
        exact List.Nodup.append hs.1 (List.nodup_singleton _)
          (by
            intro a ha hb
            rw [List.mem_singleton] at hb
            exact hfresh (hb ▸ ha))
      · rw [htr]
        intro a ha
        have hmd : ((afterErase (canBeDisassembled env address (done address s)).2
            address).log (Event.decode (env.loader.view address)
              { instruction with address := address })).m_done = (done address s).m_done := by
          simp only [log]
          rw [afterErase_done, canBeDisassembled_done]
        rw [hmd]
        rcases List.mem_append.mp ha with h1 | h1
        · exact hdone a (hs.2 a h1)
        · rw [List.mem_singleton] at h1
          rw [h1]; exact hself
    have hlog : ∀ (t : AlgorithmImpl) (e : Event), decodedAddresses [e] = [] →
        DecodedOnce t → DecodedOnce (t.log e) := by
      intro t e he ht
      refine ⟨?_, ?_⟩
      · rw [decodedAddresses_log, he, List.append_nil]; exact ht.1
      · rw [decodedAddresses_log, he, List.append_nil]; exact ht.2
    split
    · split
      · exact hq1 _ _ (hlog _ _ rfl hgo)
      · exact hq2 _ _ (hlog _ _ rfl hgo)
    · exact hq1 _ _ (hlog _ _ rfl hskip)

theorem runCalls_decodedOnce (env : Env) (calls : Calls) :
    ∀ s : AlgorithmImpl, DecodedOnce s → DecodedOnce (runCalls env calls s) := by
  induction calls with
  | nil => intro s hs; exact hs
  | call address instruction nested rest ihn ihr =>
    intro s hs
    rw [runCalls]
    apply ihr
    apply disassemble_decodedOnce
    · intro i t ht; exact ihn t ht
    · intro i t ht; exact ihn t ht
    · exact hs

/-- A run that asks for `0x1000` three times (once re-entrantly) and for `0x1001` twice
decodes each of the two addresses once. -/
theorem runCalls_example :
    decodedAddresses (runCalls nopEnv
      (Calls.call 0x1000 {}
        (Calls.call 0x1000 {} Calls.nil (Calls.call 0x1001 {} Calls.nil Calls.nil))
        (Calls.call 0x1001 {} Calls.nil (Calls.call 0x1000 {} Calls.nil Calls.nil)))
      (init [])).trace = [0x1000, 0x1001] := by
  decide

/-- C6: over every finite run of `disassemble` calls started with an empty done set,
re-entrant calls from the hooks included, the `decode` of the assembler is invoked at
most once for each address. -/
theorem decode_at_most_once_per_address (env : Env) (symbols : List Symbol) (calls : Calls)
    (address : Nat) :
    (decodedAddresses (runCalls env calls (init symbols)).trace).count address ≤ 1 := by
  have hinit : DecodedOnce (init symbols) := by
    refine ⟨?_, ?_⟩
    · simp [init, decodedAddresses]
    · intro a ha
      simp [init, decodedAddresses] at ha
  exact List.nodup_iff_count_le_one.mp (runCalls_decodedOnce env calls _ hinit).1 address

/-! ### Decode failure -/

theorem disassemble_failure (env : Env) (q : Hooks) (address : Nat)
    (instruction : Instruction) (s : AlgorithmImpl) (hdone : address ∉ s.m_done)
    (hcan : (canBeDisassembled env address s).1 = true)
    (hdec : (decodeAt env address instruction).1 = false) :
    disassemble env q address instruction s =
      (Algorithm.FAIL, createInvalidInstruction (decodeAt env address instruction).2,
        q.onDecodeFailed (createInvalidInstruction (decodeAt env address instruction).2)
          (((afterErase (canBeDisassembled env address (done address s)).2 address).log
              (Event.decode (env.loader.view address) { instruction with address := address })).log
            (Event.onDecodeFailed
              (createInvalidInstruction (decodeAt env address instruction).2)))) := by
  rw [disassemble_not_done env q address instruction s hdone]
  rw [if_pos (by rw [canBeDisassembled_after_done]; exact hcan)]
  have hd : ¬ (env.decode (env.loader.view address)
      { instruction with address := address }).1 = true := by
    have := hdec
    unfold decodeAt at this
    rw [this]
    decide
  rw [if_neg hd]
  rfl

/-- C7, as amended: for an address that is not yet done, can be disassembled and whose
decode returns false, after `disassemble` the instruction has type `Invalid` and
mnemonic `db`; its size is 1 when decode left the size field at 0, and otherwise the
(nonzero) size that decode left. -/
theorem disassemble_failure_marks_invalid (env : Env) (q : Hooks) (address : Nat)
    (instruction : Instruction) (s : AlgorithmImpl) (hdone : address ∉ s.m_done)
    (hcan : (canBeDisassembled env address s).1 = true)
    (hdec : (decodeAt env address instruction).1 = false) :
    (disassemble env q address instruction s).2.1.type = InstructionType.Invalid ∧
      (disassemble env q address instruction s).2.1.mnemonic = "db" ∧
      (disassemble env q address instruction s).2.1.size =
        (if (decodeAt env address instruction).2.size = 0 then 1
          else (decodeAt env address instruction).2.size) ∧
      0 < (disassemble env q address instruction s).2.1.size := by
  rw [disassemble_failure env q address instruction s hdone hcan hdec]
  have hsize : (createInvalidInstruction (decodeAt env address instruction).2).size =
      (if (decodeAt env address instruction).2.size = 0 then 1
        else (decodeAt env address instruction).2.size) := by
    unfold createInvalidInstruction
    simp only
    split <;> rfl
  refine ⟨rfl, rfl, hsize, ?_⟩
  show 0 < (createInvalidInstruction (decodeAt env address instruction).2).size
  rw [hsize]
  split <;> omega

/-- Witness of C7 as amended: a decoder that fails leaving size 0, at `0x1000`. -/
theorem disassemble_failure_marks_invalid_witness :
    0x1000 ∉ (init []).m_done ∧
      (canBeDisassembled (failingEnv 0) 0x1000 (init [])).1 = true ∧
      (decodeAt (failingEnv 0) 0x1000 {}).1 = false ∧
      (disassemble (failingEnv 0) silent 0x1000 {} (init [])).2.1 =
        { address := 0x1000, size := 1, type := InstructionType.Invalid, mnemonic := "db" } ∧
      (disassemble (failingEnv 0) silent 0x1000 {} (init [])).2.1.size =
        (if (decodeAt (failingEnv 0) 0x1000 {}).2.size = 0 then 1
          else (decodeAt (failingEnv 0) 0x1000 {}).2.size) :=
  ⟨by decide, by decide, by decide, by decide,
    (disassemble_failure_marks_invalid (failingEnv 0) silent 0x1000 {} (init [])
      (by decide) (by decide) (by decide)).2.2.1⟩

/-- Counterexample to C7 as stated: the address `0x1000` is not done, can be
disassembled, decode returns false leaving size 3, and after `disassemble` the
instruction is `Invalid` with mnemonic `db` but its size is 3, not 1. -/
theorem disassemble_failure_size_counterexample :
    0x1000 ∉ (init []).m_done ∧
      (canBeDisassembled (failingEnv 3) 0x1000 (init [])).1 = true ∧
      (decodeAt (failingEnv 3) 0x1000 {}).1 = false ∧
      (disassemble (failingEnv 3) silent 0x1000 {} (init [])).1 = Algorithm.FAIL ∧
      (disassemble (failingEnv 3) silent 0x1000 {} (init [])).2.1.type
        = InstructionType.Invalid ∧
      (disassemble (failingEnv 3) silent 0x1000 {} (init [])).2.1.size = 3 ∧
      (disassemble (failingEnv 3) silent 0x1000 {} (init [])).2.1.size ≠ 1 := by
  decide

/-- C8: for an address that is not yet done, can be disassembled and whose decode
returns false, `disassemble` returns `FAIL`; the hook `onDecodeFailed` runs exactly
once, on the instruction already marked invalid, in a state whose record holds no
other new hook call, and `onDecoded` is not invoked. -/
theorem disassemble_failure_reports_once (env : Env) (q : Hooks) (address : Nat)
    (instruction : Instruction) (s : AlgorithmImpl) (hdone : address ∉ s.m_done)
    (hcan : (canBeDisassembled env address s).1 = true)
    (hdec : (decodeAt env address instruction).1 = false) :
    (disassemble env q address instruction s).1 = Algorithm.FAIL ∧
      (disassemble env q address instruction s).2.1.type = InstructionType.Invalid ∧
      (∃ s1 : AlgorithmImpl, hookEvents s1.trace = hookEvents s.trace ∧
        (disassemble env q address instruction s).2.2 =
          q.onDecodeFailed (disassemble env q address instruction s).2.1
            (s1.log (Event.onDecodeFailed (disassemble env q address instruction s).2.1))) ∧
      hookEvents (disassemble env silent address instruction s).2.2.trace =
        hookEvents s.trace ++
          [Event.onDecodeFailed (disassemble env q address instruction s).2.1] := by
  rw [disassemble_failure env q address instruction s hdone hcan hdec,
    disassemble_failure env silent address instruction s hdone hcan hdec]
  have hpre : hookEvents ((afterErase (canBeDisassembled env address (done address s)).2
      address).log (Event.decode (env.loader.view address)
        { instruction with address := address })).trace = hookEvents s.trace := by
    rw [hookEvents_log, afterErase_hookEvents, canBeDisassembled_trace]
    simp [hookEvents, done]
  refine ⟨rfl, rfl, ⟨_, hpre, rfl⟩, ?_⟩
  show hookEvents ((((afterErase (canBeDisassembled env address (done address s)).2
      address).log (Event.decode (env.loader.view address)
        { instruction with address := address })).log
      (Event.onDecodeFailed
        (createInvalidInstruction (decodeAt env address instruction).2)))).trace = _
  rw [hookEvents_log, hpre]
  rfl

/-- Witness of C8: scenario S4 of the spec, a failing decode at `0x1000`. -/
theorem disassemble_failure_reports_once_witness :
    0x1000 ∉ (init []).m_done ∧
      (canBeDisassembled (failingEnv 0) 0x1000 (init [])).1 = true ∧
      (decodeAt (failingEnv 0) 0x1000 {}).1 = false ∧
      (disassemble (failingEnv 0) silent 0x1000 {} (init [])).1 = Algorithm.FAIL ∧
      hookEvents (disassemble (failingEnv 0) silent 0x1000 {} (init [])).2.2.trace =
        hookEvents (init []).trace ++
          [Event.onDecodeFailed (disassemble (failingEnv 0) silent 0x1000 {} (init [])).2.1] :=
  ⟨by decide, by decide, by decide,
    (disassemble_failure_reports_once (failingEnv 0) silent 0x1000 {} (init [])
      (by decide) (by decide) (by decide)).1,
    (disassemble_failure_reports_once (failingEnv 0) silent 0x1000 {} (init [])
      (by decide) (by decide) (by decide)).2.2.2⟩

/-! ### Addresses that cannot be disassembled -/

/-- C9, the code at the failing input: `0x9999` lies in no segment and the loader has no
bytes for it, so it cannot be disassembled; `disassemble` returns `SKIP` and leaves the
instruction untouched, yet the record shows one `onDecoded` call on that instruction. -/
theorem disassemble_skip_invokes_onDecoded :
    0x9999 ∉ (init []).m_done ∧
      (canBeDisassembled (failingEnv 0) 0x9999 (init [])).1 = false ∧
      disassemble (failingEnv 0) silent 0x9999 {} (init []) =
        (Algorithm.SKIP, {}, { m_done := [0x9999], trace := [Event.onDecoded {}] }) ∧
      hookEvents (disassemble (failingEnv 0) silent 0x9999 {} (init [])).2.2.trace =
        [Event.onDecoded {}] := by
  decide

/-- For every address that is not done and cannot be disassembled, `disassemble`
returns `SKIP` and runs the `onDecoded` hook once on the untouched instruction. -/
theorem disassemble_cannot_skip (env : Env) (q : Hooks) (address : Nat)
    (instruction : Instruction) (s : AlgorithmImpl) (hdone : address ∉ s.m_done)
    (hcan : (canBeDisassembled env address s).1 = false) :
    disassemble env q address instruction s =
      (Algorithm.SKIP, instruction,
        q.onDecoded instruction
          ((canBeDisassembled env address (done address s)).2.log
            (Event.onDecoded instruction))) := by
  rw [disassemble_not_done env q address instruction s hdone]
  have hc : ¬ (canBeDisassembled env address (done address s)).1 = true := by
    rw [canBeDisassembled_after_done, hcan]
    decide
  rw [if_neg hc]

/-! ### The contract of `disassembleInstruction` -/

/-- C10: when `canBeDisassembled` is false, `disassembleInstruction` returns `SKIP`, the
instruction comes back as it was (its address field is not written) and the record and
the symbols are unchanged (no decode, no erased symbol); when it is true, the result is
`OK` iff decode returns true and `FAIL` iff decode returns false, and decode was passed
an instruction whose address is the requested address. -/
theorem disassembleInstruction_contract (env : Env) (address : Nat)
    (instruction : Instruction) (s : AlgorithmImpl) :
    ((canBeDisassembled env address s).1 = false →
        (disassembleInstruction env address instruction s).1 = Algorithm.SKIP ∧
        (disassembleInstruction env address instruction s).2.1 = instruction ∧
        (disassembleInstruction env address instruction s).2.2.trace = s.trace ∧
        (disassembleInstruction env address instruction s).2.2.symbols = s.symbols) ∧
      ((canBeDisassembled env address s).1 = true →
        ((disassembleInstruction env address instruction s).1 = Algorithm.OK ↔
          (decodeAt env address instruction).1 = true) ∧
        ((disassembleInstruction env address instruction s).1 = Algorithm.FAIL ↔
          (decodeAt env address instruction).1 = false) ∧
        ∃ passed : Instruction, passed.address = address ∧
          decodeAt env address instruction = env.decode (env.loader.view address) passed ∧
          (disassembleInstruction env address instruction s).2.1 =
            (env.decode (env.loader.view address) passed).2 ∧
          (disassembleInstruction env address instruction s).2.2.trace =
            (afterErase (canBeDisassembled env address s).2 address).trace ++
              [Event.decode (env.loader.view address) passed]) := by
  refine ⟨?_, ?_⟩
  · intro hcan
    rw [disassembleInstruction_skip env address instruction s hcan]
    exact ⟨rfl, rfl, canBeDisassembled_trace env address s,
      canBeDisassembled_symbols env address s⟩
  · intro hcan
    rw [disassembleInstruction_go env address instruction s hcan]
    refine ⟨?_, ?_, ⟨{ instruction with address := address }, rfl, rfl, rfl, rfl⟩⟩
    · unfold decodeAt
      cases (env.decode (env.loader.view address) { instruction with address := address }).1
        <;> simp
    · unfold decodeAt
      cases (env.decode (env.loader.view address) { instruction with address := address }).1
        <;> simp

/-! ### Target validation -/

theorem validateTarget_of_nonnumeric (d : TargetContext) (instruction : Instruction)
    (s : AlgorithmImpl) (ctx : Context) (op : Operand)
    (hop : d.target instruction = some op) (hnum : op.numeric = false) :
    validateTarget d instruction s ctx = (s, ctx) := by
  unfold validateTarget
  rw [hop]
  simp only [hnum]
  split <;> rfl

/-- C11, as amended: for every instruction with a non-numeric target operand, with zero
resolved targets or more, `validateTarget` reports no problem; it returns the state and
the channel as they were, so it is not fatal and changes no state. -/
theorem validateTarget_nonnumeric_silent (d : TargetContext) (instruction : Instruction)
    (s : AlgorithmImpl) (ctx : Context) (op : Operand)
    (hop : d.target instruction = some op) (hnum : op.numeric = false) :
    validateTarget d instruction s ctx = (s, ctx) ∧
      (validateTarget d instruction s ctx).2.problems = ctx.problems :=
  ⟨validateTarget_of_nonnumeric d instruction s ctx op hop hnum,
    by rw [validateTarget_of_nonnumeric d instruction s ctx op hop hnum]⟩

/-- Witness of C11 as amended: a jump through a register, no target recorded. -/
theorem validateTarget_nonnumeric_silent_witness :
    (exampleTargets false).target { address := 0x1000, mnemonic := "jmp" }
        = some { numeric := false } ∧
      validateTarget (exampleTargets false) { address := 0x1000, mnemonic := "jmp" }
        (init []) {} = (init [], {}) :=
  ⟨rfl,
    (validateTarget_nonnumeric_silent (exampleTargets false)
      { address := 0x1000, mnemonic := "jmp" } (init []) {} { numeric := false } rfl rfl).1⟩

/-- Counterexample to C11 as stated: the instruction at `0x1000` has a non-numeric
target operand and zero resolved targets, and `validateTarget` reports no problem. -/
theorem validateTarget_nonnumeric_counterexample :
    (exampleTargets false).getTargetsCount 0x1000 = 0 ∧
      (exampleTargets false).target { address := 0x1000, mnemonic := "jmp" }
        = some { numeric := false } ∧
      (validateTarget (exampleTargets false) { address := 0x1000, mnemonic := "jmp" }
        (init []) {}).2.problems = [] := by
  refine ⟨rfl, rfl, ?_⟩
  rw [validateTarget_of_nonnumeric (exampleTargets false)
    { address := 0x1000, mnemonic := "jmp" } (init []) {} { numeric := false } rfl rfl]

/-- C12: for every instruction whose target operand is numeric, `validateTarget` reports
a problem if and only if the recorded target count of the address of the instruction
is zero; it then reports exactly one message, made of the quoted mnemonic and the
hexadecimal address, and the state is unchanged either way. -/
theorem validateTarget_numeric (d : TargetContext) (instruction : Instruction)
    (s : AlgorithmImpl) (ctx : Context) (op : Operand)
    (hop : d.target instruction = some op) (hnum : op.numeric = true) :
    (validateTarget d instruction s ctx).1 = s ∧
      (validateTarget d instruction s ctx).2.statuses = ctx.statuses ∧
      (validateTarget d instruction s ctx).2.problems =
        (if d.getTargetsCount instruction.address = 0 then
          ctx.problems ++ ["No targets found for " ++ d.quoted instruction.mnemonic ++
            " @ " ++ d.hex instruction.address]
        else ctx.problems) ∧
      ((validateTarget d instruction s ctx).2.problems ≠ ctx.problems ↔
        d.getTargetsCount instruction.address = 0) := by
  unfold validateTarget
  rw [hop]
  simp only [hnum]
  by_cases hc : d.getTargetsCount instruction.address = 0
  · simp [hc, Context.problem, problemMessage]
  · simp [hc]

/-- Witness of C12: scenario S5 of the spec, `jmp 0x9999` at `0x1000`. -/
theorem validateTarget_numeric_witness :
    (exampleTargets true).target { address := 0x1000, mnemonic := "jmp" }
        = some { numeric := true } ∧
      ((validateTarget (exampleTargets true) { address := 0x1000, mnemonic := "jmp" }
          (init []) {}).2.problems ≠ [] ↔
        (exampleTargets true).getTargetsCount 0x1000 = 0) :=
  ⟨rfl,
    (validateTarget_numeric (exampleTargets true)
      { address := 0x1000, mnemonic := "jmp" } (init []) {} { numeric := true } rfl rfl).2.2.2⟩

/-! ### State validation -/

/-- C16: `validateState` returns true if and only if the base `validateState` accepts the
state and some segment of the document contains the address of the state; a state
whose address lies in no segment is rejected. -/
theorem validateState_iff (env : Env) (baseValidateState : State → Bool) (state : State) :
    (validateState env baseValidateState state = true ↔
        (baseValidateState state = true ∧
          ∃ seg ∈ env.segments, seg.contains state.address = true)) ∧
      ((∀ seg ∈ env.segments, seg.contains state.address = false) →
        validateState env baseValidateState state = false) := by
  have hiff : validateState env baseValidateState state = true ↔
      (baseValidateState state = true ∧
        ∃ seg ∈ env.segments, seg.contains state.address = true) := by
    unfold validateState segment
    cases hb : baseValidateState state
    · simp
    · simp [List.find?_isSome]
  refine ⟨hiff, ?_⟩
  intro hnone
  rw [← Bool.not_eq_true, hiff]
  rintro ⟨_, seg, hseg, hc⟩
  rw [hnone seg hseg] at hc
  exact Bool.false_ne_true hc

/-! ### The segment cache of `canBeDisassembled` -/

theorem canBeDisassembled_eq (env : Env) (address : Nat) (s : AlgorithmImpl) :
    canBeDisassembled env address s =
      if (env.loader.view address).eob = true then (false, s)
      else
        ((match (match s.m_currentsegment with
              | none => segment env address
              | some seg => if seg.contains address then some seg else segment env address) with
          | none => false
          | some seg => seg.isCode && env.loader.offsetValid address),
          { s with m_currentsegment :=
              (match s.m_currentsegment with
                | none => segment env address
                | some seg =>
                  if seg.contains address then some seg else segment env address) }) := by
  obtain ⟨d, cs, sy, tr⟩ := s
  unfold canBeDisassembled
  simp only
  by_cases he : (env.loader.view address).eob = true
  · rw [if_pos he, if_pos he]
  · rw [if_neg he, if_neg he]
    cases cs with
    | none =>
      simp only
      cases segment env address with
      | none => rfl
      | some seg =>
        simp only
        cases seg.isCode <;> cases env.loader.offsetValid address <;> rfl
    | some cur =>
      simp only
      cases hc : cur.contains address
      · simp only [Bool.not_false, if_true, Bool.false_eq_true, if_false]
        cases segment env address with
        | none => rfl
        | some seg =>
          simp only
          cases seg.isCode <;> cases env.loader.offsetValid address <;> rfl
      · simp only [Bool.not_true, Bool.false_eq_true, if_false, if_true]
        cases cur.isCode <;> cases env.loader.offsetValid address <;> rfl

theorem segment_of_contains {env : Env} (hno : NonOverlapping env.segments)
    {seg : Segment} (hmem : seg ∈ env.segments) {address : Nat}
    (hc : seg.contains address = true) : segment env address = some seg := by
  unfold segment
  cases hf : env.segments.find? (fun seg => seg.contains address) with
  | none =>
    rw [List.find?_eq_none] at hf
    exact absurd hc (hf seg hmem)
  | some found =>
    have hfc : found.contains address = true :=
      @List.find?_some _ (fun seg : Segment => seg.contains address) _ _ hf
    have hfm : found ∈ env.segments := List.mem_of_find?_eq_some hf
    by_cases heq : found = seg
    · rw [heq]
    · have hsymm : Symmetric disjointSegments := by
        intro a b hab
        unfold disjointSegments at *
        omega
      have hdis := List.Pairwise.forall hsymm hno hfm hmem heq
      unfold disjointSegments at hdis
      unfold Segment.contains at hc hfc
      simp only [Bool.and_eq_true, decide_eq_true_eq] at hc hfc
      omega

theorem canBeDisassembled_refines (env : Env) (hno : NonOverlapping env.segments)
    (address : Nat) (s : AlgorithmImpl) (hcache : CacheValid env s) :
    (canBeDisassembled env address s).1 = canBeDisassembledUncached env address ∧
      CacheValid env (canBeDisassembled env address s).2 := by
  rw [canBeDisassembled_eq]
  unfold canBeDisassembledUncached
  by_cases he : (env.loader.view address).eob = true
  · rw [if_pos he]
    simp only [he]
    exact ⟨by simp, hcache⟩
  · rw [if_neg he]
    have he2 : (env.loader.view address).eob = false := by simpa using he
    have hlookup : (match s.m_currentsegment with
        | none => segment env address
        | some seg => if seg.contains address then some seg else segment env address)
        = segment env address := by
      cases hcur : s.m_currentsegment with
      | none => rfl
      | some cur =>
        simp only
        by_cases hc : cur.contains address = true
        · rw [if_pos hc]
          exact (segment_of_contains hno (hcache cur hcur) hc).symm
        · rw [if_neg hc]
    rw [hlookup]
    refine ⟨?_, ?_⟩
    · simp only [he2]
      cases segment env address with
      | none => simp
      | some seg => simp
    · intro seg hseg
      simp only at hseg
      unfold segment at hseg
      exact List.mem_of_find?_eq_some hseg

theorem canBeDisassembledAll_refines (env : Env) (hno : NonOverlapping env.segments)
    (addresses : List Nat) :
    ∀ s : AlgorithmImpl, CacheValid env s →
      canBeDisassembledAll env addresses s =
        addresses.map (canBeDisassembledUncached env) := by
  induction addresses with
  | nil => intro s _; rfl
  | cons address rest ih =>
    intro s hcache
    obtain ⟨h1, h2⟩ := canBeDisassembled_refines env hno address s hcache
    rw [canBeDisassembledAll, List.map_cons, h1, ih _ h2]

/-- C18: when the segments of the document are pairwise non-overlapping (and never
change) and the cached segment, if set, is a segment of the document, the answers of
the caching `canBeDisassembled` to every sequence of queried addresses are those of
the cache-free definition. -/
theorem canBeDisassembled_cache_refines (env : Env) (hno : NonOverlapping env.segments)
    (addresses : List Nat) (s : AlgorithmImpl) (hcache : CacheValid env s) :
    canBeDisassembledAll env addresses s =
      addresses.map (canBeDisassembledUncached env) :=
  canBeDisassembledAll_refines env hno addresses s hcache

/-- Witness of C18: queries that move between a code segment, a data segment and
unmapped addresses, starting without a cached segment. -/
theorem canBeDisassembled_cache_refines_witness :
    NonOverlapping twoSegmentEnv.segments ∧
      canBeDisassembledAll twoSegmentEnv [0x1000, 0x1004, 0x1001, 0x2000, 0x1002] (init [])
        = [true, false, true, false, true] ∧
      canBeDisassembledAll twoSegmentEnv [0x1000, 0x1004, 0x1001, 0x2000, 0x1002] (init [])
        = [0x1000, 0x1004, 0x1001, 0x2000, 0x1002].map
            (canBeDisassembledUncached twoSegmentEnv) :=
  ⟨by decide, by decide,
    canBeDisassembled_cache_refines twoSegmentEnv (by decide)
      [0x1000, 0x1004, 0x1001, 0x2000, 0x1002] (init [])
      (by intro seg hseg; simp [init] at hseg)⟩

end AlgorithmImpl

namespace Analysis

/-! ### The full analyzer pass runs once -/

theorem analyze_of_analyzed (during : Analysis → Analysis) (s : Analysis)
    (h : s.m_analyzed = true) :
    analyze during s =
      (during ((s.log [AnalysisEvent.status "Analyzing (Fast)..."]).log
        [AnalysisEvent.analyzeFast])).log
          [AnalysisEvent.computeBasicBlocks, AnalysisEvent.moveToEP] := by
  unfold analyze
  rw [if_pos h]

theorem analyze_of_fresh (during : Analysis → Analysis) (s : Analysis)
    (h : s.m_analyzed = false) :
    analyze during s =
      ((during ((({ ({ s with m_analyzed := true } : Analysis).log
            [AnalysisEvent.createAnalyzer] with m_analyzer := true } : Analysis).log
          [AnalysisEvent.status "Analyzing..."]).log [AnalysisEvent.analyze])).log
        [AnalysisEvent.computeBasicBlocks, AnalysisEvent.moveToEP]).log
          [AnalysisEvent.connectBusyChanged] := by
  unfold analyze
  rw [h]
  simp only [Bool.false_eq_true, if_false]

theorem occurrences_log (e : AnalysisEvent) (s : Analysis) (es : List AnalysisEvent) :
    occurrences e (s.log es) = occurrences e s + es.count e := by
  simp [occurrences, log, List.count_append]

theorem log_analyzed (s : Analysis) (es : List AnalysisEvent) :
    (s.log es).m_analyzed = s.m_analyzed := rfl

theorem runAnalyze_of_analyzed (calls : AnalyzeCalls) :
    ∀ s : Analysis, s.m_analyzed = true →
      (runAnalyze calls s).m_analyzed = true ∧
        ∀ e, occurrences e (runAnalyze calls s) =
          occurrences e s + calls.size * fastPassEvents.count e := by
  induction calls with
  | nil =>
    intro s hs
    exact ⟨hs, fun e => by simp [runAnalyze, AnalyzeCalls.size]⟩
  | call nested rest ihn ihr =>
    intro s hs
    rw [runAnalyze, analyze_of_analyzed _ s hs]
    obtain ⟨hn1, hn2⟩ := ihn ((s.log [AnalysisEvent.status "Analyzing (Fast)..."]).log
      [AnalysisEvent.analyzeFast]) hs
    obtain ⟨hr1, hr2⟩ := ihr ((runAnalyze nested
      ((s.log [AnalysisEvent.status "Analyzing (Fast)..."]).log
        [AnalysisEvent.analyzeFast])).log
          [AnalysisEvent.computeBasicBlocks, AnalysisEvent.moveToEP]) hn1
    refine ⟨hr1, ?_⟩
    intro e
    rw [hr2 e, occurrences_log, hn2 e, occurrences_log, occurrences_log]
    have hcount : fastPassEvents.count e =
        [AnalysisEvent.status "Analyzing (Fast)..."].count e +
          [AnalysisEvent.analyzeFast].count e +
          [AnalysisEvent.computeBasicBlocks, AnalysisEvent.moveToEP].count e := by
      rw [← List.count_append, ← List.count_append]
      rfl
    simp only [AnalyzeCalls.size]
    rw [hcount]
    ring

theorem runAnalyze_of_fresh (nested rest : AnalyzeCalls) (s : Analysis)
    (hs : s.m_analyzed = false) (e : AnalysisEvent) :
    occurrences e (runAnalyze (AnalyzeCalls.call nested rest) s) =
      occurrences e s + firstPassEvents.count e +
        (nested.size + rest.size) * fastPassEvents.count e := by
  rw [runAnalyze, analyze_of_fresh _ s hs]
  obtain ⟨hn1, hn2⟩ := runAnalyze_of_analyzed nested
    ((({ ({ s with m_analyzed := true } : Analysis).log
        [AnalysisEvent.createAnalyzer] with m_analyzer := true } : Analysis).log
      [AnalysisEvent.status "Analyzing..."]).log [AnalysisEvent.analyze]) rfl
  obtain ⟨_, hr2⟩ := runAnalyze_of_analyzed rest
    (((runAnalyze nested
      ((({ ({ s with m_analyzed := true } : Analysis).log
          [AnalysisEvent.createAnalyzer] with m_analyzer := true } : Analysis).log
        [AnalysisEvent.status "Analyzing..."]).log [AnalysisEvent.analyze])).log
      [AnalysisEvent.computeBasicBlocks, AnalysisEvent.moveToEP]).log
        [AnalysisEvent.connectBusyChanged]) hn1
  rw [hr2 e, occurrences_log, occurrences_log, hn2 e, occurrences_log, occurrences_log]
  have hfirst : firstPassEvents.count e =
      [AnalysisEvent.createAnalyzer].count e + [AnalysisEvent.status "Analyzing..."].count e +
        [AnalysisEvent.analyze].count e +
        [AnalysisEvent.computeBasicBlocks, AnalysisEvent.moveToEP].count e +
        [AnalysisEvent.connectBusyChanged].count e := by
    rw [← List.count_append, ← List.count_append, ← List.count_append, ← List.count_append]
    rfl
  have hbase : occurrences e
      ({ ({ s with m_analyzed := true } : Analysis).log
        [AnalysisEvent.createAnalyzer] with m_analyzer := true } : Analysis) =
      occurrences e s + [AnalysisEvent.createAnalyzer].count e := by
    simp [occurrences, log, List.count_append]
  rw [hbase, hfirst]
  ring

theorem runAnalyze_successive (n : Nat) :
    ∀ s : Analysis, s.m_analyzed = true →
      (runAnalyze (AnalyzeCalls.successive n) s).events = s.events ++ fastPasses n := by
  induction n with
  | zero => intro s _; simp [AnalyzeCalls.successive, runAnalyze, fastPasses]
  | succ n ih =>
    intro s hs
    rw [AnalyzeCalls.successive, runAnalyze, analyze_of_analyzed _ s hs,
      ih _ (by simpa [runAnalyze, log] using hs)]
    simp [runAnalyze, log, fastPasses, fastPassEvents]

/-- C17: in every run of `analyze` calls from the state the constructor leaves, nested
calls included, the full pass `analyze` runs exactly once and the `busyChanged` handler
is connected exactly once, both in the first call; every other call runs `analyzeFast`;
every call computes the basic blocks and moves the cursor to the entry point. For
successive calls the record is the first pass followed by fast passes only. -/
theorem analyze_full_pass_once (nested rest : AnalyzeCalls) (n : Nat) :
    occurrences AnalysisEvent.analyze (runAnalyze (AnalyzeCalls.call nested rest) init) = 1 ∧
      occurrences AnalysisEvent.connectBusyChanged
        (runAnalyze (AnalyzeCalls.call nested rest) init) = 1 ∧
      occurrences AnalysisEvent.analyzeFast
        (runAnalyze (AnalyzeCalls.call nested rest) init) = nested.size + rest.size ∧
      occurrences AnalysisEvent.computeBasicBlocks
        (runAnalyze (AnalyzeCalls.call nested rest) init) =
          (AnalyzeCalls.call nested rest).size ∧
      occurrences AnalysisEvent.moveToEP
        (runAnalyze (AnalyzeCalls.call nested rest) init) =
          (AnalyzeCalls.call nested rest).size ∧
      (runAnalyze (AnalyzeCalls.successive (n + 1)) init).events =
        firstPassEvents ++ fastPasses n := by
  have hinit : init.m_analyzed = false := rfl
  have h := runAnalyze_of_fresh nested rest init hinit
  refine ⟨?_, ?_, ?_, ?_, ?_, ?_⟩
  · rw [h]; simp [occurrences, init, firstPassEvents, fastPassEvents]
  · rw [h]; simp [occurrences, init, firstPassEvents, fastPassEvents]
  · rw [h]; simp [occurrences, init, firstPassEvents, fastPassEvents]
  · rw [h]; simp [occurrences, init, firstPassEvents, fastPassEvents, AnalyzeCalls.size]
    omega
  · rw [h]; simp [occurrences, init, firstPassEvents, fastPassEvents, AnalyzeCalls.size]
    omega
  · rw [AnalyzeCalls.successive, runAnalyze, analyze_of_fresh _ init hinit,
      runAnalyze_successive n _ rfl]
    simp [runAnalyze, log, init, firstPassEvents]

end Analysis

namespace AlgorithmImpl

/-! ### Which symbol `disassembleInstruction` erases -/

theorem afterErase_of_frame (s : AlgorithmImpl) (seg : Option Segment) (address : Nat) :
    (afterErase { s with m_currentsegment := seg } address).symbols =
        (afterErase s address).symbols ∧
      (afterErase { s with m_currentsegment := seg } address).trace =
        (afterErase s address).trace := by
  unfold afterErase symbol
  simp only
  cases s.symbols.find? (fun sym => sym.address == address) with
  | none => exact ⟨rfl, rfl⟩
  | some sym =>
    simp only
    split <;> exact ⟨rfl, rfl⟩

theorem symbol_address {s : AlgorithmImpl} {address : Nat} {sym : Symbol}
    (h : symbol s address = some sym) : sym.address = address ∧ sym ∈ s.symbols := by
  unfold symbol at h
  have h1 := @List.find?_some _ (fun sym : Symbol => sym.address == address) _ _ h
  exact ⟨by simpa using h1, List.mem_of_find?_eq_some h⟩

/-- C13: for an address that can be disassembled, `disassembleInstruction` calls
`eraseSymbol` (once, for that address) if and only if the document has a symbol there
that is neither locked nor of kind Code, and that symbol is then gone; a locked symbol
or a Code symbol at the address leaves the symbol table as it was, and every symbol at
another address stays. -/
theorem disassembleInstruction_erases (env : Env) (address : Nat)
    (instruction : Instruction) (s : AlgorithmImpl)
    (hcan : (canBeDisassembled env address s).1 = true) :
    erasedAddresses (disassembleInstruction env address instruction s).2.2.trace =
        erasedAddresses s.trace ++
          (match symbol s address with
            | some sym => if !sym.locked && !sym.code then [address] else []
            | none => []) ∧
      (∀ sym, symbol s address = some sym → sym.locked = false → sym.code = false →
        sym ∉ (disassembleInstruction env address instruction s).2.2.symbols) ∧
      (∀ sym, symbol s address = some sym → (sym.locked = true ∨ sym.code = true) →
        (disassembleInstruction env address instruction s).2.2.symbols = s.symbols) ∧
      (symbol s address = none →
        (disassembleInstruction env address instruction s).2.2.symbols = s.symbols) ∧
      (∀ other ∈ s.symbols, other.address ≠ address →
        other ∈ (disassembleInstruction env address instruction s).2.2.symbols) := by
  rw [disassembleInstruction_go env address instruction s hcan]
  obtain ⟨seg, hframe⟩ := canBeDisassembled_frame env address s
  rw [hframe]
  obtain ⟨hsym, htr⟩ := afterErase_of_frame s seg address
  have hsymbols : ((afterErase { s with m_currentsegment := seg } address).log
      (Event.decode (env.loader.view address) { instruction with address := address })).symbols
      = (afterErase s address).symbols := by
    rw [← hsym]; rfl
  have htrace : erasedAddresses ((afterErase { s with m_currentsegment := seg } address).log
      (Event.decode (env.loader.view address) { instruction with address := address })).trace
      = erasedAddresses (afterErase s address).trace := by
    simp only [log, htr]
    simp [erasedAddresses, List.filterMap_append]
  simp only [hsymbols, htrace]
  refine ⟨?_, ?_, ?_, ?_, ?_⟩
  · unfold afterErase
    cases hs : symbol s address with
    | none => simp
    | some sym =>
      have haddr := (symbol_address hs).1
      simp only
      split
      · simp [eraseSymbol, erasedAddresses, List.filterMap_append, haddr]
      · simp
  · intro sym hs hl hc
    have haddr := (symbol_address hs).1
    unfold afterErase
    rw [hs]
    simp [hl, hc, eraseSymbol, haddr]
  · intro sym hs hlc
    unfold afterErase
    rw [hs]
    rcases hlc with hl | hc
    · simp [hl]
    · simp [hc]
  · intro hs
    unfold afterErase
    rw [hs]
  · intro other hmem hne
    unfold afterErase
    cases hs : symbol s address with
    | none => exact hmem
    | some sym =>
      have haddr := (symbol_address hs).1
      simp only
      split
      · simp only [eraseSymbol, List.mem_filter]
        refine ⟨hmem, ?_⟩
        simp [haddr, hne]
      · exact hmem

/-- Witness of C13: an unlocked data symbol at `0x1000` is erased, the locked symbol at
`0x1001` stays. -/
theorem disassembleInstruction_erases_witness :
    (canBeDisassembled nopEnv 0x1000 (init [⟨0x1000, false, false⟩, ⟨0x1001, true, false⟩])).1
        = true ∧
      (disassembleInstruction nopEnv 0x1000 {}
        (init [⟨0x1000, false, false⟩, ⟨0x1001, true, false⟩])).2.2.symbols
        = [⟨0x1001, true, false⟩] ∧
      erasedAddresses (disassembleInstruction nopEnv 0x1000 {}
        (init [⟨0x1000, false, false⟩, ⟨0x1001, true, false⟩])).2.2.trace =
        erasedAddresses (init [⟨0x1000, false, false⟩, ⟨0x1001, true, false⟩]).trace ++
          (match symbol (init [⟨0x1000, false, false⟩, ⟨0x1001, true, false⟩]) 0x1000 with
            | some sym => if !sym.locked && !sym.code then [0x1000] else []
            | none => []) :=
  ⟨by decide, by decide,
    (disassembleInstruction_erases nopEnv 0x1000 {}
      (init [⟨0x1000, false, false⟩, ⟨0x1001, true, false⟩]) (by decide)).1⟩

/-! ### Size after `disassemble`, and the done set -/

theorem createInvalidInstruction_size_pos (instruction : Instruction) :
    0 < (createInvalidInstruction instruction).size := by
  unfold createInvalidInstruction
  simp only
  split
  · exact Nat.one_pos
  · omega

/-- C14: when the assembler keeps its contract (size > 0 whenever decode returns true),
every call of `disassemble` that returns `OK` or `FAIL` leaves the instruction with a
size greater than zero. -/
theorem disassemble_size_positive (env : Env) (q : Hooks) (address : Nat)
    (instruction : Instruction) (s : AlgorithmImpl)
    (hcontract : ∀ view i, (env.decode view i).1 = true → 0 < (env.decode view i).2.size)
    (hresult : (disassemble env q address instruction s).1 = Algorithm.OK ∨
      (disassemble env q address instruction s).1 = Algorithm.FAIL) :
    0 < (disassemble env q address instruction s).2.1.size := by
  by_cases hd : address ∈ s.m_done
  · rw [disassemble_of_done env q address instruction s hd] at hresult
    rcases hresult with h | h <;> exact Algorithm.noConfusion h
  · rw [disassemble_not_done env q address instruction s hd] at hresult ⊢
    by_cases hc : (canBeDisassembled env address (done address s)).1 = true
    · rw [if_pos hc] at hresult ⊢
      by_cases hdec : (env.decode (env.loader.view address)
          { instruction with address := address }).1 = true
      · rw [if_pos hdec]
        exact hcontract _ _ hdec
      · rw [if_neg hdec]
        exact createInvalidInstruction_size_pos _
    · rw [if_neg hc] at hresult
      rcases hresult with h | h <;> exact Algorithm.noConfusion h

/-- Witness of C14: the one-byte `nop` decoder at `0x1000`. -/
theorem disassemble_size_positive_witness :
    (∀ view i, (nopEnv.decode view i).1 = true → 0 < (nopEnv.decode view i).2.size) ∧
      (disassemble nopEnv silent 0x1000 {} (init [])).1 = Algorithm.OK ∧
      0 < (disassemble nopEnv silent 0x1000 {} (init [])).2.1.size :=
  ⟨fun _ _ _ => Nat.one_pos, by decide,
    disassemble_size_positive nopEnv silent 0x1000 {} (init [])
      (fun _ _ _ => Nat.one_pos) (Or.inl (by decide))⟩

theorem disassemble_done_eq (env : Env) (q : Hooks) (address : Nat)
    (instruction : Instruction) (s : AlgorithmImpl)
    (hq1 : ∀ i t, (q.onDecoded i t).m_done = t.m_done)
    (hq2 : ∀ i t, (q.onDecodeFailed i t).m_done = t.m_done) :
    (disassemble env q address instruction s).2.2.m_done = s.m_done.insert address := by
  by_cases hd : address ∈ s.m_done
  · rw [disassemble_of_done env q address instruction s hd]
    exact (List.insert_of_mem hd).symm
  · rw [disassemble_not_done env q address instruction s hd]
    have hgo : ∀ e1 e2, (((afterErase (canBeDisassembled env address (done address s)).2
        address).log e1).log e2).m_done = s.m_done.insert address := by
      intro e1 e2
      simp only [log]
      rw [afterErase_done, canBeDisassembled_done]
      rfl
    have hskip : ∀ e, ((canBeDisassembled env address (done address s)).2.log e).m_done
        = s.m_done.insert address := by
      intro e
      simp only [log]
      rw [canBeDisassembled_done]
      rfl
    split
    · split
      · rw [hq1, hgo]
      · rw [hq2, hgo]
    · rw [hq1, hskip]

theorem disassemble_done_superset (env : Env) (q : Hooks) (address : Nat)
    (instruction : Instruction) (s : AlgorithmImpl)
    (hq1 : ∀ i t, ∀ a ∈ t.m_done, a ∈ (q.onDecoded i t).m_done)
    (hq2 : ∀ i t, ∀ a ∈ t.m_done, a ∈ (q.onDecodeFailed i t).m_done) :
    ∀ a ∈ s.m_done.insert address, a ∈ (disassemble env q address instruction s).2.2.m_done := by
  intro a ha
  by_cases hd : address ∈ s.m_done
  · rw [disassemble_of_done env q address instruction s hd]
    rw [List.insert_of_mem hd] at ha
    exact ha
  · rw [disassemble_not_done env q address instruction s hd]
    have hgo : ∀ e1 e2, (((afterErase (canBeDisassembled env address (done address s)).2
        address).log e1).log e2).m_done = s.m_done.insert address := by
      intro e1 e2
      simp only [log]
      rw [afterErase_done, canBeDisassembled_done]
      rfl
    have hskip : ∀ e, ((canBeDisassembled env address (done address s)).2.log e).m_done
        = s.m_done.insert address := by
      intro e
      simp only [log]
      rw [canBeDisassembled_done]
      rfl
    split
    · split
      · exact hq1 _ _ a (by rw [hgo]; exact ha)
      · exact hq2 _ _ a (by rw [hgo]; exact ha)
    · exact hq1 _ _ a (by rw [hskip]; exact ha)

theorem runCalls_done_superset (env : Env) (calls : Calls) :
    ∀ s : AlgorithmImpl, ∀ a ∈ s.m_done, a ∈ (runCalls env calls s).m_done := by
  induction calls with
  | nil => intro s a ha; exact ha
  | call address instruction nested rest ihn ihr =>
    intro s a ha
    rw [runCalls]
    apply ihr
    apply disassemble_done_superset env _ address instruction s
      (fun _ t b hb => ihn t b hb) (fun _ t b hb => ihn t b hb)
    exact List.mem_insert_of_mem ha

/-- C15: after every call `disassemble(address, ...)`, whatever it returns, the done set
is the previous done set with the address added, for hooks that leave the done set
alone; when the hooks call back into `disassemble`, the address is in the done set and
no previously done address has been removed. -/
theorem disassemble_done_set (env : Env) (address : Nat) (instruction : Instruction)
    (s : AlgorithmImpl) :
    (∀ q : Hooks, (∀ i t, (q.onDecoded i t).m_done = t.m_done) →
        (∀ i t, (q.onDecodeFailed i t).m_done = t.m_done) →
        (disassemble env q address instruction s).2.2.m_done = s.m_done.insert address ∧
        address ∈ (disassemble env q address instruction s).2.2.m_done ∧
        ∀ a ∈ s.m_done, a ∈ (disassemble env q address instruction s).2.2.m_done) ∧
      (∀ nested : Calls,
        address ∈ (disassemble env (reentrant env nested) address instruction s).2.2.m_done ∧
        ∀ a ∈ s.m_done,
          a ∈ (disassemble env (reentrant env nested) address instruction s).2.2.m_done) := by
  refine ⟨?_, ?_⟩
  · intro q hq1 hq2
    rw [disassemble_done_eq env q address instruction s hq1 hq2]
    exact ⟨rfl, List.mem_insert_self _ _, fun a ha => List.mem_insert_of_mem ha⟩
  · intro nested
    have h := disassemble_done_superset env (reentrant env nested) address instruction s
      (fun _ t b hb => runCalls_done_superset env nested t b hb)
      (fun _ t b hb => runCalls_done_superset env nested t b hb)
    exact ⟨h _ (List.mem_insert_self _ _), fun a ha => h a (List.mem_insert_of_mem ha)⟩

/-- The three outcomes of `disassemble` on a fresh address, each marking it done:
`OK` at `0x1000`, `FAIL` at `0x1001`, `SKIP` at the unmapped `0x9999`. -/
theorem disassemble_done_set_examples :
    (disassemble nopEnv silent 0x1000 {} (init [])).1 = Algorithm.OK ∧
      (disassemble nopEnv silent 0x1000 {} (init [])).2.2.m_done = [0x1000] ∧
      (disassemble (failingEnv 0) silent 0x1001 {} (init [])).1 = Algorithm.FAIL ∧
      (disassemble (failingEnv 0) silent 0x1001 {} (init [])).2.2.m_done = [0x1001] ∧
      (disassemble nopEnv silent 0x9999 {} (init [])).1 = Algorithm.SKIP ∧
      (disassemble nopEnv silent 0x9999 {} (init [])).2.2.m_done = [0x9999] := by
  decide

end AlgorithmImpl

namespace Listing

/-! ### Insertion followed by lookup -/

theorem insertionPoint_sorted_insert {items : List ListingItem} (hs : StrictlySorted items)
    (item : ListingItem)
    (habs : ∀ x ∈ items, ¬ (x.address = item.address ∧ x.type = item.type)) :
    ∃ p, insertionPoint items item = some p ∧ p ≤ items.length ∧
      StrictlySorted (insertAt items p item) := by
  obtain ⟨p, hp, hle, hlo, hhi⟩ :=
    lowerBoundLoop_spec hs item items.length 0 items.length (Nat.le_refl _) (by omega)
      (fun j _ hj => absurd hj (Nat.not_lt_zero j))
      (fun j h hj => absurd h (by omega))
  refine ⟨p, hp, hle, ?_⟩
  apply strictlySorted_insertAt hs item p hle hlo
  intro j h hj
  have h1 := hhi j h hj
  have h2 := habs _ (List.getElem_mem h)
  rw [comparator_false_iff] at h1
  rw [comparator_iff]
  omega

theorem length_insertAt (items : List ListingItem) (p : Nat) (item : ListingItem)
    (hp : p ≤ items.length) : (insertAt items p item).length = items.length + 1 := by
  unfold insertAt
  rw [List.length_append, List.length_cons, List.length_take, List.length_drop]
  omega

theorem getElem?_insertAt_self (items : List ListingItem) (p : Nat) (item : ListingItem)
    (hp : p ≤ items.length) : (insertAt items p item)[p]? = some item := by
  unfold insertAt
  have hlen : (items.take p).length = p := by rw [List.length_take]; omega
  rw [List.getElem?_append_right (by omega), hlen]
  simp

theorem getElem?_insertAt_before (items : List ListingItem) (p : Nat) (item : ListingItem)
    (j : Nat) (hj : j < p) (hjl : j < items.length) :
    (insertAt items p item)[j]? = some items[j] := by
  unfold insertAt
  have hlen : j < (items.take p).length := by rw [List.length_take]; omega
  rw [List.getElem?_append_left hlen, List.getElem?_take_of_lt hj,
    List.getElem?_eq_getElem hjl]

theorem getElem?_insertAt_after (items : List ListingItem) (p : Nat) (item : ListingItem)
    (j : Nat) (hj : p ≤ j) (hjl : j < items.length) :
    (insertAt items p item)[j + 1]? = some items[j] := by
  unfold insertAt
  have hlen : (items.take p).length = p := by rw [List.length_take]; omega
  rw [List.getElem?_append_right (by omega), hlen]
  have hidx : j + 1 - p = (j - p) + 1 := by omega
  rw [hidx, List.getElem?_cons_succ, List.getElem?_drop]
  have hpj : p + (j - p) = j := by omega
  rw [hpj, List.getElem?_eq_getElem hjl]

theorem indexOf_at_of_small {items : List ListingItem} (hs : StrictlySorted items)
    (hsmall : ∀ x ∈ items, x.type < 2 ^ 31) (i : Nat) (x : ListingItem)
    (hx : items[i]? = some x) : indexOf items x.address x.type = some (toInt32 i) := by
  obtain ⟨hi, hfound⟩ := binarySearch_at_of_small hs hsmall i x hx
  exact indexOf_of_found hfound hi

theorem isItemKind_insertAt {items : List ListingItem} {item : ListingItem} (p : Nat)
    (hk : ∀ x ∈ items, ListingItem.isItemKind x.type)
    (hitem : ListingItem.isItemKind item.type) :
    ∀ x ∈ insertAt items p item, ListingItem.isItemKind x.type := by
  intro x hx
  unfold insertAt at hx
  rw [List.mem_append, List.mem_cons] at hx
  rcases hx with h | h | h
  · exact hk x (List.mem_of_mem_take h)
  · rw [h]; exact hitem
  · exact hk x (List.mem_of_mem_drop h)

/-- C19, as amended: for a strictly sorted listing container of fewer than `2 ^ 31`
items, its items and the inserted item being of the listing kinds
`SegmentItem .. InstructionItem`, and the key of the item being absent: after inserting
the item at `insertionPoint` the `indexOf` of its key is the insertion index, and the
`indexOf` of every key already present is unchanged if it was before the insertion
index and increased by one otherwise. -/
theorem insert_indexOf_roundtrip (items : List ListingItem) (item : ListingItem)
    (hs : StrictlySorted items) (hk : ∀ x ∈ items, ListingItem.isItemKind x.type)
    (hitem : ListingItem.isItemKind item.type) (hlen : items.length < 2 ^ 31)
    (habs : ∀ x ∈ items, ¬ (x.address = item.address ∧ x.type = item.type)) :
    ∃ p, insertionPoint items item = some p ∧ p ≤ items.length ∧
      indexOf (insertAt items p item) item.address item.type = some (p : Int) ∧
      ∀ j (h : j < items.length),
        indexOf items items[j].address items[j].type = some (j : Int) ∧
        indexOf (insertAt items p item) items[j].address items[j].type =
          some (if j < p then (j : Int) else (j : Int) + 1) := by
  obtain ⟨p, hp, hle, hsorted⟩ := insertionPoint_sorted_insert hs item habs
  have hsmall := isItemKind_small hk
  have hsmall2 := isItemKind_small (isItemKind_insertAt p hk hitem)
  refine ⟨p, hp, hle, ?_, ?_⟩
  · rw [indexOf_at_of_small hsorted hsmall2 p item (getElem?_insertAt_self items p item hle),
      toInt32_of_lt (by omega)]
  · intro j h
    refine ⟨?_, ?_⟩
    · rw [indexOf_at_of_small hs hsmall j items[j] (List.getElem?_eq_getElem h),
        toInt32_of_lt (by omega)]
    · by_cases hjp : j < p
      · rw [if_pos hjp, indexOf_at_of_small hsorted hsmall2 j items[j]
          (getElem?_insertAt_before items p item j hjp h), toInt32_of_lt (by omega)]
      · rw [if_neg hjp, indexOf_at_of_small hsorted hsmall2 (j + 1) items[j]
          (getElem?_insertAt_after items p item j (by omega) h), toInt32_of_lt (by omega)]
        push_cast
        rfl

/-- Witness of C19 as amended: inserting the key (4, 1) into a five-item listing. -/
theorem insert_indexOf_roundtrip_witness :
    StrictlySorted [⟨1, 1⟩, ⟨1, 5⟩, ⟨1, 6⟩, ⟨4, 6⟩, ⟨7, 1⟩] ∧
      insertionPoint [⟨1, 1⟩, ⟨1, 5⟩, ⟨1, 6⟩, ⟨4, 6⟩, ⟨7, 1⟩] ⟨4, 1⟩ = some 3 ∧
      indexOf (insertAt [⟨1, 1⟩, ⟨1, 5⟩, ⟨1, 6⟩, ⟨4, 6⟩, ⟨7, 1⟩] 3 ⟨4, 1⟩) 4 1 = some 3 ∧
      indexOf (insertAt [⟨1, 1⟩, ⟨1, 5⟩, ⟨1, 6⟩, ⟨4, 6⟩, ⟨7, 1⟩] 3 ⟨4, 1⟩) 4 6 = some 4 ∧
      ∃ p, insertionPoint [⟨1, 1⟩, ⟨1, 5⟩, ⟨1, 6⟩, ⟨4, 6⟩, ⟨7, 1⟩] ⟨4, 1⟩ = some p ∧
        indexOf (insertAt [⟨1, 1⟩, ⟨1, 5⟩, ⟨1, 6⟩, ⟨4, 6⟩, ⟨7, 1⟩] p ⟨4, 1⟩) 4 1
          = some (p : Int) := by
  refine ⟨by decide, by decide, by decide, by decide, ?_⟩
  obtain ⟨p, hp, _, hself, _⟩ :=
    insert_indexOf_roundtrip [⟨1, 1⟩, ⟨1, 5⟩, ⟨1, 6⟩, ⟨4, 6⟩, ⟨7, 1⟩] ⟨4, 1⟩
      (by decide) (by decide) (by decide) (by decide) (by decide)
  exact ⟨p, hp, hself⟩

/-- Counterexample to C19 as stated: the listing of `2 ^ 31` segment items at the
addresses `0 .. 2 ^ 31 - 1` is strictly sorted, of listing kinds, and has no item with
the key `(2 ^ 31, SegmentItem)`; that segment item is inserted at index `2 ^ 31`, after
which `indexOf` of its key, an `int`, is `-2 ^ 31` and not the insertion index. -/
theorem insert_indexOf_roundtrip_counterexample :
    StrictlySorted (segmentListing (2 ^ 31)) ∧
      (∀ x ∈ segmentListing (2 ^ 31), ListingItem.isItemKind x.type) ∧
      (∀ x ∈ segmentListing (2 ^ 31),
        ¬ (x.address = 2 ^ 31 ∧ x.type = ListingItem.SegmentItem)) ∧
      insertionPoint (segmentListing (2 ^ 31))
        { address := 2 ^ 31, type := ListingItem.SegmentItem } = some (2 ^ 31) ∧
      indexOf (insertAt (segmentListing (2 ^ 31)) (2 ^ 31)
          { address := 2 ^ 31, type := ListingItem.SegmentItem })
        (2 ^ 31) ListingItem.SegmentItem = some (-2147483648) := by
  have hs := strictlySorted_segmentListing (2 ^ 31)
  have hk := isItemKind_segmentListing (2 ^ 31)
  have hlen := length_segmentListing (2 ^ 31)
  have habs : ∀ x ∈ segmentListing (2 ^ 31),
      ¬ (x.address = 2 ^ 31 ∧ x.type = ListingItem.SegmentItem) := by
    intro x hx h
    have := (mem_segmentListing hx).1
    omega
  have hpoint : insertionPoint (segmentListing (2 ^ 31))
      { address := 2 ^ 31, type := ListingItem.SegmentItem } = some (2 ^ 31) := by
    obtain ⟨p, hp, hle, _, hhi⟩ :=
      lowerBoundLoop_spec hs { address := 2 ^ 31, type := ListingItem.SegmentItem }
        (segmentListing (2 ^ 31)).length 0 (segmentListing (2 ^ 31)).length
        (Nat.le_refl _) (by omega)
        (fun j _ hj => absurd hj (Nat.not_lt_zero j))
        (fun j h hj => absurd h (by omega))
    have hpe : p = 2 ^ 31 := by
      by_contra hne
      have hp2 : p < (segmentListing (2 ^ 31)).length := by omega
      have hcmp := hhi p hp2 (Nat.le_refl _)
      have hget := getElem?_segmentListing (2 ^ 31) p (by omega)
      rw [List.getElem?_eq_getElem hp2] at hget
      rw [Option.some.inj hget, comparator_false_iff] at hcmp
      simp only at hcmp
      omega
    unfold insertionPoint
    rw [hp, hpe]
  refine ⟨hs, hk, habs, hpoint, ?_⟩
  have hsorted : StrictlySorted (insertAt (segmentListing (2 ^ 31)) (2 ^ 31)
      { address := 2 ^ 31, type := ListingItem.SegmentItem }) := by
    obtain ⟨p, hp, _, hsort⟩ := insertionPoint_sorted_insert hs
      { address := 2 ^ 31, type := ListingItem.SegmentItem } habs
    rw [hpoint] at hp
    have hpe : p = 2 ^ 31 := (Option.some.inj hp).symm
    subst hpe
    exact hsort
  have hkinds := isItemKind_insertAt (2 ^ 31) hk
    (show ListingItem.isItemKind
      ({ address := 2 ^ 31, type := ListingItem.SegmentItem } : ListingItem).type by decide)
  rw [indexOf_at_of_small hsorted (isItemKind_small hkinds) (2 ^ 31)
    { address := 2 ^ 31, type := ListingItem.SegmentItem }
    (getElem?_insertAt_self _ _ _ (by omega))]
  rfl

/-! ### Every dereference of the search is inside the container -/

theorem adjustWalk_step (items : List ListingItem) (type : Nat) (offset : Int) (a fuel : Nat)
    (it : Nat) (h : it < items.length) :
    adjustWalk items type offset a (fuel + 1) (it : Int) =
      (it : Int) ::
        (if a = items[it].address then
          if items[it].type = type then []
          else if offset < 0 ∧ it = 0 then []
          else adjustWalk items type offset a fuel
            (if offset > 0 then (it : Int) + 1 else (it : Int) - 1)
        else []) := by
  have hne : ¬ ((it : Int) = (items.length : Int)) := by omega
  rw [adjustWalk, if_neg hne, deref_natCast, List.getElem?_eq_getElem h]
  simp

theorem adjust_forward_safe (items : List ListingItem) (type a : Nat) (offset : Int)
    (hoff : 0 < offset) :
    ∀ (n fuel it : Nat), items.length - it = n → it ≤ items.length → n + 1 ≤ fuel →
      (∃ r, adjustLoop items type offset a fuel (it : Int) = some r ∧ r ≤ items.length) ∧
        ∀ p ∈ adjustWalk items type offset a fuel (it : Int),
          0 ≤ p ∧ p ≤ (items.length : Int) := by
  intro n
  induction n with
  | zero =>
    intro fuel it hn hit hfuel
    obtain ⟨fuel, rfl⟩ : ∃ k, fuel = k + 1 := ⟨fuel - 1, by omega⟩
    have hend : (it : Int) = (items.length : Int) := by omega
    rw [adjustLoop, if_pos hend, adjustWalk, if_pos hend]
    refine ⟨⟨_, rfl, Nat.le_refl _⟩, ?_⟩
    intro p hp
    rw [List.mem_singleton] at hp
    omega
  | succ n ih =>
    intro fuel it hn hit hfuel
    obtain ⟨fuel, rfl⟩ : ∃ k, fuel = k + 1 := ⟨fuel - 1, by omega⟩
    have hlt : it < items.length := by omega
    rw [adjustLoop_step _ _ _ _ _ _ hlt, adjustWalk_step _ _ _ _ _ _ hlt]
    have hbrk : ¬ (offset < 0 ∧ it = 0) := by omega
    obtain ⟨hres, hwalk⟩ := ih fuel (it + 1) (by omega) (by omega) (by omega)
    have hnext : (if offset > 0 then (it : Int) + 1 else (it : Int) - 1) = ((it + 1 : Nat) : Int) := by
      rw [if_pos hoff]; omega
    rw [hnext]
    by_cases ha : a = items[it].address
    · rw [if_pos ha, if_pos ha]
      by_cases hty : items[it].type = type
      · rw [if_pos hty, if_pos hty]
        refine ⟨⟨it, rfl, hit⟩, ?_⟩
        intro p hp
        rw [List.mem_singleton] at hp
        omega
      · rw [if_neg hty, if_neg hty, if_neg hbrk, if_neg hbrk]
        refine ⟨hres, ?_⟩
        intro p hp
        rw [List.mem_cons] at hp
        rcases hp with hp | hp
        · omega
        · exact hwalk p hp
    · rw [if_neg ha, if_neg ha]
      refine ⟨⟨_, rfl, Nat.le_refl _⟩, ?_⟩
      intro p hp
      rw [List.mem_singleton] at hp
      omega

theorem adjust_backward_safe (items : List ListingItem) (type a : Nat) (offset : Int)
    (hoff : offset < 0) :
    ∀ (it fuel : Nat), it < items.length → it + 1 ≤ fuel →
      (∃ r, adjustLoop items type offset a fuel (it : Int) = some r ∧ r ≤ items.length) ∧
        ∀ p ∈ adjustWalk items type offset a fuel (it : Int),
          0 ≤ p ∧ p ≤ (items.length : Int) := by
  intro it
  induction it with
  | zero =>
    intro fuel hlt hfuel
    obtain ⟨fuel, rfl⟩ : ∃ k, fuel = k + 1 := ⟨fuel - 1, by omega⟩
    rw [adjustLoop_step _ _ _ _ _ _ hlt, adjustWalk_step _ _ _ _ _ _ hlt]
    have hbrk : offset < 0 ∧ (0 : Nat) = 0 := ⟨hoff, rfl⟩
    have hwalk : ∀ p ∈ [((0 : Nat) : Int)], 0 ≤ p ∧ p ≤ (items.length : Int) := by
      intro p hp
      rw [List.mem_singleton] at hp
      omega
    by_cases ha : a = items[0].address
    · rw [if_pos ha, if_pos ha]
      by_cases hty : items[0].type = type
      · rw [if_pos hty, if_pos hty]
        exact ⟨⟨0, rfl, Nat.zero_le _⟩, hwalk⟩
      · rw [if_neg hty, if_neg hty, if_pos hbrk, if_pos hbrk]
        exact ⟨⟨_, rfl, Nat.le_refl _⟩, hwalk⟩
    · rw [if_neg ha, if_neg ha]
      exact ⟨⟨_, rfl, Nat.le_refl _⟩, hwalk⟩
  | succ it ih =>
    intro fuel hlt hfuel
    obtain ⟨fuel, rfl⟩ : ∃ k, fuel = k + 1 := ⟨fuel - 1, by omega⟩
    rw [adjustLoop_step _ _ _ _ _ _ hlt, adjustWalk_step _ _ _ _ _ _ hlt]
    have hbrk : ¬ (offset < 0 ∧ it + 1 = 0) := by omega
    have hpos : ¬ offset > 0 := by omega
    obtain ⟨hres, hwalk⟩ := ih fuel (by omega) (by omega)
    have hnext : (if offset > 0 then ((it + 1 : Nat) : Int) + 1 else ((it + 1 : Nat) : Int) - 1)
        = (it : Int) := by
      rw [if_neg hpos]; omega
    rw [hnext]
    by_cases ha : a = items[it + 1].address
    · rw [if_pos ha, if_pos ha]
      by_cases hty : items[it + 1].type = type
      · rw [if_pos hty, if_pos hty]
        refine ⟨⟨it + 1, rfl, by omega⟩, ?_⟩
        intro p hp
        rw [List.mem_singleton] at hp
        omega
      · rw [if_neg hty, if_neg hty, if_neg hbrk, if_neg hbrk]
        refine ⟨hres, ?_⟩
        intro p hp
        rw [List.mem_cons] at hp
        rcases hp with hp | hp
        · omega
        · exact hwalk p hp
    · rw [if_neg ha, if_neg ha]
      refine ⟨⟨_, rfl, Nat.le_refl _⟩, ?_⟩
      intro p hp
      rw [List.mem_singleton] at hp
      omega

theorem adjustSearch_safe (items : List ListingItem) (hu : ∀ x ∈ items, ListingItem.fitsU32 x)
    (type : Nat) (ht : type < 2 ^ 32) (m : Nat) (hm : m < items.length) :
    (∃ r, _adjustSearch items (m : Int) type = some r ∧ r ≤ items.length) ∧
      ∀ p ∈ adjustSearchWalk items (m : Int) type, 0 ≤ p ∧ p ≤ (items.length : Int) := by
  unfold _adjustSearch adjustSearchWalk
  rw [deref_natCast, List.getElem?_eq_getElem hm]
  simp only
  have hfit : items[m].type < 2 ^ 32 := hu _ (List.getElem_mem hm)
  rcases lt_trichotomy (searchOffset type items[m].type) 0 with hneg | hzero | hpos
  · exact adjust_backward_safe items type _ _ hneg m _ hm (by omega)
  · have hty : items[m].type = type := (searchOffset_eq_zero ht hfit hzero).symm
    rw [adjustLoop_step _ _ _ _ _ _ hm, adjustWalk_step _ _ _ _ _ _ hm,
      if_pos rfl, if_pos rfl, if_pos hty, if_pos hty]
    refine ⟨⟨m, rfl, by omega⟩, ?_⟩
    intro p hp
    rw [List.mem_singleton] at hp
    omega
  · exact adjust_forward_safe items type _ _ hpos _ _ m rfl (by omega) (by omega)

theorem searchBounds_head (items : List ListingItem) (address fuel : Nat) (b e : Int) :
    ∀ y ∈ (searchBounds items address fuel b e).head?, y = (b, e) := by
  intro y hy
  cases fuel with
  | zero => simp [searchBounds] at hy
  | succ fuel =>
    rw [searchBounds] at hy
    simp only [List.head?_cons, Option.mem_def, Option.some.injEq] at hy
    exact hy.symm

theorem searchBounds_spec {items : List ListingItem} (hsa : SortedByAddress items)
    (address : Nat) (hpos : 0 < items.length) (hfirst : items[0].address ≤ address)
    (hlast : address ≤ (items[items.length - 1]).address) :
    ∀ (fuel : Nat) (b e : Int), 0 ≤ b → 0 ≤ e → e ≤ (items.length : Int) →
      (∀ j (h : j < items.length), (j : Int) < b → items[j].address < address) →
      (∀ j (h : j < items.length), e < (j : Int) → address < items[j].address) →
      (∀ be ∈ searchBounds items address fuel b e,
          0 ≤ be.1 ∧ 0 ≤ be.2 ∧ be.2 ≤ (items.length : Int) ∧
            (be.1 ≤ be.2 → 0 ≤ be.1 + Int.tdiv (be.2 - be.1) 2 ∧
              be.1 + Int.tdiv (be.2 - be.1) 2 < (items.length : Int))) ∧
        List.Chain' shrinks (searchBounds items address fuel b e) := by
  intro fuel
  induction fuel with
  | zero =>
    intro b e _ _ _ _ _
    simp [searchBounds]
  | succ fuel ih =>
    intro b e hb he0 he hlo hhi
    have hmid : b ≤ e → 0 ≤ b + Int.tdiv (e - b) 2 ∧
        b + Int.tdiv (e - b) 2 < (items.length : Int) := by
      intro hbe
      rw [Int.tdiv_eq_ediv (by omega) (by decide)]
      have hblt : b < (items.length : Int) := by
        by_contra hcon
        have h1 := hlo (items.length - 1) (by omega) (by omega)
        omega
      omega
    have hhere : 0 ≤ b ∧ 0 ≤ e ∧ e ≤ (items.length : Int) ∧
        (b ≤ e → 0 ≤ b + Int.tdiv (e - b) 2 ∧
          b + Int.tdiv (e - b) 2 < (items.length : Int)) := ⟨hb, he0, he, hmid⟩
    have hsingle : (∀ be ∈ [(b, e)],
        0 ≤ be.1 ∧ 0 ≤ be.2 ∧ be.2 ≤ (items.length : Int) ∧
          (be.1 ≤ be.2 → 0 ≤ be.1 + Int.tdiv (be.2 - be.1) 2 ∧
            be.1 + Int.tdiv (be.2 - be.1) 2 < (items.length : Int))) ∧
        List.Chain' shrinks [(b, e)] := by
      refine ⟨?_, List.chain'_singleton _⟩
      intro be hbe
      rw [List.mem_singleton] at hbe
      rw [hbe]
      exact hhere
    have hcons : ∀ (b2 e2 : Int), e2 - b2 < e - b →
        ((∀ be ∈ searchBounds items address fuel b2 e2,
          0 ≤ be.1 ∧ 0 ≤ be.2 ∧ be.2 ≤ (items.length : Int) ∧
            (be.1 ≤ be.2 → 0 ≤ be.1 + Int.tdiv (be.2 - be.1) 2 ∧
              be.1 + Int.tdiv (be.2 - be.1) 2 < (items.length : Int))) ∧
          List.Chain' shrinks (searchBounds items address fuel b2 e2)) →
        (∀ be ∈ (b, e) :: searchBounds items address fuel b2 e2,
          0 ≤ be.1 ∧ 0 ≤ be.2 ∧ be.2 ≤ (items.length : Int) ∧
            (be.1 ≤ be.2 → 0 ≤ be.1 + Int.tdiv (be.2 - be.1) 2 ∧
              be.1 + Int.tdiv (be.2 - be.1) 2 < (items.length : Int))) ∧
          List.Chain' shrinks ((b, e) :: searchBounds items address fuel b2 e2) := by
      intro b2 e2 hsh hrest
      refine ⟨?_, ?_⟩
      · intro be hbe
        rw [List.mem_cons] at hbe
        rcases hbe with hbe | hbe
        · rw [hbe]; exact hhere
        · exact hrest.1 be hbe
      · rw [List.chain'_cons']
        refine ⟨?_, hrest.2⟩
        intro y hy
        rw [searchBounds_head items address fuel b2 e2 y hy]
        exact hsh
    rw [searchBounds]
    by_cases hbe : b ≤ e
    · rw [if_pos hbe]
      have hdiv : Int.tdiv (e - b) 2 = (e - b) / 2 := Int.tdiv_eq_ediv (by omega) (by decide)
      obtain ⟨hm0, hmlt⟩ := hmid hbe
      simp only [hdiv] at hm0 hmlt ⊢
      obtain ⟨m, hmeq⟩ : ∃ m : Nat, (m : Int) = b + (e - b) / 2 :=
        ⟨(b + (e - b) / 2).toNat, by omega⟩
      have hm : m < items.length := by omega
      rw [← hmeq, deref_natCast, List.getElem?_eq_getElem hm]
      simp only
      by_cases heq : items[m].address = address
      · rw [if_pos heq]
        exact hsingle
      · rw [if_neg heq]
        by_cases hgt : items[m].address > address
        · rw [if_pos hgt]
          have hm1 : m ≠ 0 := by
            intro h0
            subst h0
            omega
          apply hcons _ _ (by omega)
          apply ih
          · exact hb
          · omega
          · omega
          · exact hlo
          · intro j h hj
            have := sortedByAddress_getElem hsa hm h (by omega)
            omega
        · rw [if_neg hgt]
          have hlt : items[m].address < address := by omega
          rw [if_pos hlt]
          apply hcons _ _ (by omega)
          apply ih
          · omega
          · exact he0
          · exact he
          · intro j h hj
            have := sortedByAddress_getElem hsa h hm (by omega)
            omega
          · exact hhi
    · rw [if_neg hbe]
      exact hsingle

theorem binarySearchBounds_unfold {items : List ListingItem} (hpos : 0 < items.length)
    (address : Nat) :
    binarySearchBounds items address =
      if address < items[0].address ∨ address > (items[items.length - 1]).address then []
      else searchBounds items address (items.length + 2) 0 items.length := by
  unfold binarySearchBounds
  have hne : ¬ items.length = 0 := by omega
  rw [if_neg hne, List.head?_eq_getElem?, List.getLast?_eq_getElem?,
    List.getElem?_eq_getElem hpos, List.getElem?_eq_getElem (by omega)]

theorem binarySearchBounds_spec {items : List ListingItem} (hsa : SortedByAddress items)
    (address : Nat) :
    (∀ be ∈ binarySearchBounds items address,
        0 ≤ be.1 ∧ 0 ≤ be.2 ∧ be.2 ≤ (items.length : Int) ∧
          (be.1 ≤ be.2 → 0 ≤ be.1 + Int.tdiv (be.2 - be.1) 2 ∧
            be.1 + Int.tdiv (be.2 - be.1) 2 < (items.length : Int))) ∧
      List.Chain' shrinks (binarySearchBounds items address) := by
  by_cases hpos : 0 < items.length
  · rw [binarySearchBounds_unfold hpos]
    by_cases hguard : address < items[0].address ∨ address > (items[items.length - 1]).address
    · rw [if_pos hguard]
      exact ⟨fun be hbe => absurd hbe (List.not_mem_nil be), List.chain'_nil⟩
    · rw [if_neg hguard]
      apply searchBounds_spec hsa address hpos (by omega) (by omega)
      · exact Int.le_refl _
      · omega
      · exact Int.le_refl _
      · intro j h hj; omega
      · intro j h hj; omega
  · have hnil : items = [] := List.eq_nil_of_length_eq_zero (by omega)
    subst hnil
    exact ⟨fun be hbe => by simp [binarySearchBounds] at hbe, by simp [binarySearchBounds]⟩

/-- C20: in a container sorted by address (of `u32`-typed items, for a `u32` type),
`binarySearch` and `_adjustSearch` never dereference a position outside `[0, size)`:
the search returns an iterator in `[begin, end]` without a fault; at every test of the
loop condition the bounds satisfy `0 ≤ thebegin` and `0 ≤ theend ≤ size` (the upper
bound is never before `begin()`), and when the loop body runs the middle position is
in `[0, size)`, never `end()`; the range `theend - thebegin` strictly shrinks from one
iteration to the next; and the walk of `_adjustSearch` from any valid position only
visits positions in `[0, size]`, the position `size` being `end()`, which is tested
and not dereferenced. -/
theorem binarySearch_stays_in_range (items : List ListingItem) (hsa : SortedByAddress items)
    (hu : ∀ x ∈ items, ListingItem.fitsU32 x) (address type : Nat) (ht : type < 2 ^ 32) :
    (∃ it, binarySearch items address type = some it ∧ it ≤ items.length) ∧
      (∀ be ∈ binarySearchBounds items address,
        0 ≤ be.1 ∧ 0 ≤ be.2 ∧ be.2 ≤ (items.length : Int) ∧
          (be.1 ≤ be.2 → 0 ≤ be.1 + Int.tdiv (be.2 - be.1) 2 ∧
            be.1 + Int.tdiv (be.2 - be.1) 2 < (items.length : Int))) ∧
      List.Chain' shrinks (binarySearchBounds items address) ∧
      ∀ m, m < items.length →
        (∃ it, _adjustSearch items (m : Int) type = some it ∧ it ≤ items.length) ∧
          ∀ p ∈ adjustSearchWalk items (m : Int) type, 0 ≤ p ∧ p ≤ (items.length : Int) := by
  refine ⟨?_, (binarySearchBounds_spec hsa address).1, (binarySearchBounds_spec hsa address).2,
    fun m hm => adjustSearch_safe items hu type ht m hm⟩
  rcases binarySearch_cases hsa address type with ⟨m, hm, _, heq⟩ | ⟨_, heq⟩
  · rw [heq]
    exact (adjustSearch_safe items hu type ht m hm).1
  · exact ⟨items.length, heq, Nat.le_refl _⟩

/-- Witness of C20: a container sorted by address only, with equal keys and types out
of order, searched for an absent type at a present address. -/
theorem binarySearch_stays_in_range_witness :
    SortedByAddress [⟨1, 5⟩, ⟨1, 1⟩, ⟨4, 6⟩, ⟨4, 6⟩, ⟨7, 1⟩] ∧
      binarySearch [⟨1, 5⟩, ⟨1, 1⟩, ⟨4, 6⟩, ⟨4, 6⟩, ⟨7, 1⟩] 4 2 = some 5 ∧
      binarySearchBounds [⟨1, 5⟩, ⟨1, 1⟩, ⟨4, 6⟩, ⟨4, 6⟩, ⟨7, 1⟩] 6 =
        [(0, 5), (3, 5), (3, 3), (4, 3)] ∧
      adjustSearchWalk [⟨1, 5⟩, ⟨1, 1⟩, ⟨4, 6⟩, ⟨4, 6⟩, ⟨7, 1⟩] 2 2 = [2, 1] ∧
      List.Chain' shrinks (binarySearchBounds [⟨1, 5⟩, ⟨1, 1⟩, ⟨4, 6⟩, ⟨4, 6⟩, ⟨7, 1⟩] 6) ∧
      ∃ it, binarySearch [⟨1, 5⟩, ⟨1, 1⟩, ⟨4, 6⟩, ⟨4, 6⟩, ⟨7, 1⟩] 6 2 = some it ∧ it ≤ 5 :=
  ⟨by decide, by decide, by decide, by decide,
    (binarySearch_stays_in_range [⟨1, 5⟩, ⟨1, 1⟩, ⟨4, 6⟩, ⟨4, 6⟩, ⟨7, 1⟩]
      (by decide) (by decide) 6 2 (by decide)).2.2.1,
    (binarySearch_stays_in_range [⟨1, 5⟩, ⟨1, 1⟩, ⟨4, 6⟩, ⟨4, 6⟩, ⟨7, 1⟩]
      (by decide) (by decide) 6 2 (by decide)).1⟩

end Listing

namespace N64RomFormat

/-! ### Country code -/

/-- C21: `checkCountryCode` returns true exactly for the codes of the table in its
comment, that is for `0x37`, `0x41 .. 0x4C`, `0x4E`, `0x50`, `0x53`, `0x55` and
`0x57 .. 0x59`; every other value is rejected. -/
theorem checkCountryCode_table (country_code : Nat) :
    (checkCountryCode country_code = true ↔ country_code ∈ countryCodeTable) ∧
      (checkCountryCode country_code = true ↔
        (country_code = 0x37 ∨ (0x41 ≤ country_code ∧ country_code ≤ 0x4C) ∨
          country_code = 0x4E ∨ country_code = 0x50 ∨ country_code = 0x53 ∨
          country_code = 0x55 ∨ (0x57 ≤ country_code ∧ country_code ≤ 0x59))) ∧
      (checkCountryCode country_code = false ↔ country_code ∉ countryCodeTable) := by
  have hcond : checkCountryCode country_code = true ↔
      (country_code = 0x37 ∨ (0x41 ≤ country_code ∧ country_code ≤ 0x4C) ∨
        country_code = 0x4E ∨ country_code = 0x50 ∨ country_code = 0x53 ∨
        country_code = 0x55 ∨ (0x57 ≤ country_code ∧ country_code ≤ 0x59)) := by
    unfold checkCountryCode
    split_ifs <;> simp <;> omega
  have htable : country_code ∈ countryCodeTable ↔
      (country_code = 0x37 ∨ (0x41 ≤ country_code ∧ country_code ≤ 0x4C) ∨
        country_code = 0x4E ∨ country_code = 0x50 ∨ country_code = 0x53 ∨
        country_code = 0x55 ∨ (0x57 ≤ country_code ∧ country_code ≤ 0x59)) := by
    simp only [countryCodeTable, List.mem_cons, List.mem_singleton, List.not_mem_nil,
      or_false]
    omega
  refine ⟨hcond.trans htable.symm, hcond, ?_⟩
  rw [← Bool.not_eq_true, hcond, htable]

/-! ### Entry point -/

/-- C24: `getEP` returns the program counter of the header minus `0x100000` when the
CIC version is 6103, minus `0x200000` when it is 6106, both modulo `2 ^ 32`, and the
program counter itself for every other CIC version, 0 included. -/
theorem getEP_spec (k : N64Constants) (rom : N64Rom) :
    (getCICVersion k rom = 6103 →
        (getEP k rom : Int) = (((rom.program_counter % 2 ^ 32 : Nat) : Int) - 0x100000) % 2 ^ 32) ∧
      (getCICVersion k rom = 6106 →
        (getEP k rom : Int) = (((rom.program_counter % 2 ^ 32 : Nat) : Int) - 0x200000) % 2 ^ 32) ∧
      (getCICVersion k rom ≠ 6103 → getCICVersion k rom ≠ 6106 →
        getEP k rom = rom.program_counter % 2 ^ 32) := by
  refine ⟨?_, ?_, ?_⟩
  · intro h
    unfold getEP
    simp only [h]
    push_cast
    omega
  · intro h
    unfold getEP
    simp only [h]
    push_cast
    omega
  · intro h1 h2
    unfold getEP
    simp only [h1, h2]
    split <;> rfl

/-- Evaluation of `getEP`: CIC 6103 with a program counter below `0x100000` wraps, CIC
6106 subtracts `0x200000`, CIC 6102 and an unrecognised boot code change nothing. -/
theorem getEP_examples :
    getEP exampleN64 (exampleRom 0x0B050EE0 0x400 0 0) = 0xFFF00400 ∧
      getEP exampleN64 (exampleRom 0xACC8580A 0x80200400 0 0) = 0x80000400 ∧
      getEP exampleN64 (exampleRom 0x90BB6CB5 0x80000400 0 0) = 0x80000400 ∧
      getEP exampleN64 (exampleRom 0x12345678 0x80000400 0 0) = 0x80000400 := by
  decide

/-! ### The checksum loop -/

theorem checksumBody_t6 (k : N64Constants) (bootcode d aux : Nat) (t : ChecksumRegs) :
    (checksumBody k bootcode d aux t).t6 = (t.t6 + d) % 2 ^ 32 := rfl

theorem checksumBody_t3 (k : N64Constants) (bootcode d aux : Nat) (t : ChecksumRegs) :
    (checksumBody k bootcode d aux t).t3 = t.t3 ^^^ d := rfl

theorem checksumBody_t4 (k : N64Constants) (bootcode d aux : Nat) (t : ChecksumRegs)
    (h6 : t.t6 < 2 ^ 32) (hd : d < 2 ^ 32) :
    (checksumBody k bootcode d aux t).t4 =
      if 2 ^ 32 ≤ t.t6 + d then (t.t4 + 1) % 2 ^ 32 else t.t4 := by
  show (if (t.t6 + d) % 2 ^ 32 < t.t6 then (t.t4 + 1) % 2 ^ 32 else t.t4) = _
  by_cases h : 2 ^ 32 ≤ t.t6 + d
  · rw [if_pos h, if_pos (by omega)]
  · rw [if_neg h, if_neg (by omega)]

theorem loopWords_lt (rom : N64Rom) :
    ∀ (n i : Nat), ∀ d ∈ loopWords rom n i, d < 2 ^ 32 := by
  intro n
  induction n with
  | zero => intro i d hd; simp [loopWords] at hd
  | succ n ih =>
    intro i d hd
    rw [loopWords, List.mem_cons] at hd
    rcases hd with hd | hd
    · rw [hd]; exact Nat.mod_lt _ (by decide)
    · exact ih _ d hd

theorem checksumFold_sum (k : N64Constants) (rom : N64Rom) (bootcode : Nat) :
    ∀ (n i : Nat) (t : ChecksumRegs), t.t6 < 2 ^ 32 → t.t4 < 2 ^ 32 →
      (checksumFold k rom bootcode n i t).t6 = (t.t6 + (loopWords rom n i).sum) % 2 ^ 32 ∧
        (checksumFold k rom bootcode n i t).t4 =
          (t.t4 + (t.t6 + (loopWords rom n i).sum) / 2 ^ 32) % 2 ^ 32 ∧
        (checksumFold k rom bootcode n i t).t3 =
          (loopWords rom n i).foldl (fun x d => x ^^^ d) t.t3 := by
  intro n
  induction n with
  | zero =>
    intro i t h6 h4
    simp only [checksumFold, loopWords, List.sum_nil, Nat.add_zero]
    refine ⟨?_, ?_, rfl⟩ <;> omega
  | succ n ih =>
    intro i t h6 h4
    have hd : rom.word i % 2 ^ 32 < 2 ^ 32 := Nat.mod_lt _ (by decide)
    have hb4 := checksumBody_t4 k bootcode (rom.word i % 2 ^ 32)
      (rom.word (k.N64_ROM_HEADER_SIZE + 0x0710 + (i &&& 0xFF)) % 2 ^ 32) t h6 hd
    have hb6 := checksumBody_t6 k bootcode (rom.word i % 2 ^ 32)
      (rom.word (k.N64_ROM_HEADER_SIZE + 0x0710 + (i &&& 0xFF)) % 2 ^ 32) t
    have hb3 := checksumBody_t3 k bootcode (rom.word i % 2 ^ 32)
      (rom.word (k.N64_ROM_HEADER_SIZE + 0x0710 + (i &&& 0xFF)) % 2 ^ 32) t
    have h6next : (checksumBody k bootcode (rom.word i % 2 ^ 32)
        (rom.word (k.N64_ROM_HEADER_SIZE + 0x0710 + (i &&& 0xFF)) % 2 ^ 32) t).t6 < 2 ^ 32 := by
      rw [hb6]; exact Nat.mod_lt _ (by decide)
    have h4next : (checksumBody k bootcode (rom.word i % 2 ^ 32)
        (rom.word (k.N64_ROM_HEADER_SIZE + 0x0710 + (i &&& 0xFF)) % 2 ^ 32) t).t4 < 2 ^ 32 := by
      rw [hb4]; split <;> omega
    obtain ⟨ih6, ih4, ih3⟩ := ih (i + 4) _ h6next h4next
    rw [checksumFold, loopWords, List.sum_cons, List.foldl_cons, ih6, ih4, ih3, hb6, hb4, hb3]
    refine ⟨?_, ?_, rfl⟩
    · omega
    · split <;> omega

theorem checksumLoop_eq_fold (k : N64Constants) (rom : N64Rom) (bootcode : Nat) :
    ∀ (n fuel i : Nat) (t : ChecksumRegs),
      (k.N64_ROM_CHECKSUM_START + k.N64_ROM_CHECKSUM_LENGTH - i + 3) / 4 = n → n + 1 ≤ fuel →
      checksumLoop k rom bootcode fuel i t = some (checksumFold k rom bootcode n i t) := by
  intro n
  induction n with
  | zero =>
    intro fuel i t hn hfuel
    obtain ⟨fuel, rfl⟩ : ∃ m, fuel = m + 1 := ⟨fuel - 1, by omega⟩
    rw [checksumLoop, if_neg (by omega), checksumFold]
  | succ n ih =>
    intro fuel i t hn hfuel
    obtain ⟨fuel, rfl⟩ : ∃ m, fuel = m + 1 := ⟨fuel - 1, by omega⟩
    rw [checksumLoop, if_pos (by omega), checksumFold]
    exact ih fuel (i + 4) _ (by omega) (by omega)

theorem checksumLoop_run (k : N64Constants) (rom : N64Rom) (bootcode : Nat)
    (t : ChecksumRegs) :
    checksumLoop k rom bootcode (k.N64_ROM_CHECKSUM_LENGTH + 1) k.N64_ROM_CHECKSUM_START t =
      some (checksumFold k rom bootcode (iterations k) k.N64_ROM_CHECKSUM_START t) := by
  apply checksumLoop_eq_fold
  · unfold iterations; omega
  · unfold iterations; omega

/-- C22: in the loop of `calculateChecksum`, `t4` is incremented exactly when the 32-bit
addition `t6 + d` overflows; after the loop has processed its words `d_1 .. d_n` from
registers seeded with `s`, `t6` is the low half and `t4 - s` (modulo `2 ^ 32`) the high
half of the exact sum `s + d_1 + ... + d_n` modulo `2 ^ 64`, and `t3` is
`s XOR d_1 XOR ... XOR d_n`. -/
theorem checksum_carry_and_xor (k : N64Constants) (rom : N64Rom) (bootcode s : Nat)
    (t : ChecksumRegs) (hs : s < 2 ^ 32) (h3 : t.t3 = s) (h4 : t.t4 = s) (h6 : t.t6 = s) :
    (∀ (d aux : Nat) (u : ChecksumRegs), u.t6 < 2 ^ 32 → d < 2 ^ 32 →
        (checksumBody k bootcode d aux u).t4 =
          if 2 ^ 32 ≤ u.t6 + d then (u.t4 + 1) % 2 ^ 32 else u.t4) ∧
      ∃ u, checksumLoop k rom bootcode (k.N64_ROM_CHECKSUM_LENGTH + 1)
          k.N64_ROM_CHECKSUM_START t = some u ∧
        u.t6 = (s + (loopWords rom (iterations k) k.N64_ROM_CHECKSUM_START).sum) % 2 ^ 32 ∧
        (u.t4 + 2 ^ 32 - s) % 2 ^ 32 =
          (s + (loopWords rom (iterations k) k.N64_ROM_CHECKSUM_START).sum) % 2 ^ 64 / 2 ^ 32 ∧
        (u.t4 + 2 ^ 32 - s) % 2 ^ 32 * 2 ^ 32 + u.t6 =
          (s + (loopWords rom (iterations k) k.N64_ROM_CHECKSUM_START).sum) % 2 ^ 64 ∧
        u.t3 = (loopWords rom (iterations k) k.N64_ROM_CHECKSUM_START).foldl
          (fun x d => x ^^^ d) s := by
  refine ⟨fun d aux u hu hd => checksumBody_t4 k bootcode d aux u hu hd, ?_⟩
  obtain ⟨f6, f4, f3⟩ := checksumFold_sum k rom bootcode (iterations k)
    k.N64_ROM_CHECKSUM_START t (by omega) (by omega)
  refine ⟨_, checksumLoop_run k rom bootcode t, ?_, ?_, ?_, ?_⟩
  · rw [f6, h6]
  · rw [f4, h4, h6]; omega
  · rw [f4, f6, h4, h6]; omega
  · rw [f3, h3]

/-- Witness of C22: three words `0xFFFFFFFF` from the seed of CIC 6102; every addition
overflows, so `t4` ends three above the seed and `t6` three below it. -/
theorem checksum_carry_and_xor_witness :
    checksumLoop exampleN64 (exampleRom 0x90BB6CB5 0 0 0) 6102 13 0x1000
        ⟨0xF8CA4DDC, 0xF8CA4DDC, 0xF8CA4DDC, 0xF8CA4DDC, 0xF8CA4DDC, 0xF8CA4DDC⟩ =
      some ⟨0x0E6B644B, 0xFFFFFFFB, 0x0735B223, 0xF8CA4DDF, 0xF8CA4DD9, 0xF8CA4DD9⟩ ∧
      loopWords (exampleRom 0x90BB6CB5 0 0 0) (iterations exampleN64) 0x1000 =
        [0xFFFFFFFF, 0xFFFFFFFF, 0xFFFFFFFF] ∧
      ∃ u, checksumLoop exampleN64 (exampleRom 0x90BB6CB5 0 0 0) 6102
          (exampleN64.N64_ROM_CHECKSUM_LENGTH + 1) exampleN64.N64_ROM_CHECKSUM_START
          ⟨0xF8CA4DDC, 0xF8CA4DDC, 0xF8CA4DDC, 0xF8CA4DDC, 0xF8CA4DDC, 0xF8CA4DDC⟩ = some u ∧
        u.t6 = (0xF8CA4DDC + (loopWords (exampleRom 0x90BB6CB5 0 0 0) (iterations exampleN64)
          exampleN64.N64_ROM_CHECKSUM_START).sum) % 2 ^ 32 := by
  refine ⟨by decide, by decide, ?_⟩
  obtain ⟨u, hu, h6, _⟩ :=
    (checksum_carry_and_xor exampleN64 (exampleRom 0x90BB6CB5 0 0 0) 6102 0xF8CA4DDC
      ⟨0xF8CA4DDC, 0xF8CA4DDC, 0xF8CA4DDC, 0xF8CA4DDC, 0xF8CA4DDC, 0xF8CA4DDC⟩
      (by decide) rfl rfl rfl).2
  exact ⟨u, hu, h6⟩

/-! ### Status of the checksum -/

theorem getCICVersion_cases (k : N64Constants) (rom : N64Rom) :
    getCICVersion k rom = 0 ∨ recognised (getCICVersion k rom) := by
  unfold getCICVersion recognised
  split_ifs <;> simp

theorem checksumSeed_none_iff (k : N64Constants) (bootcode : Nat) :
    checksumSeed k bootcode = none ↔ ¬ recognised bootcode := by
  unfold checksumSeed recognised
  split_ifs <;> simp <;> omega

theorem calculateChecksum_of_unrecognised (k : N64Constants) (rom : N64Rom)
    (crc : Nat × Nat) (h : ¬ recognised (getCICVersion k rom)) :
    calculateChecksum k rom crc = some (1, crc) := by
  unfold calculateChecksum
  simp only
  rw [(checksumSeed_none_iff k _).mpr h]

theorem calculateChecksum_of_recognised (k : N64Constants) (rom : N64Rom)
    (h : recognised (getCICVersion k rom)) :
    ∃ words : Nat × Nat, ∀ crc, calculateChecksum k rom crc = some (0, words) := by
  cases hseed : checksumSeed k (getCICVersion k rom) with
  | none => exact absurd h ((checksumSeed_none_iff k _).mp hseed)
  | some seed =>
    refine ⟨checksumWords (getCICVersion k rom)
      (checksumFold k rom (getCICVersion k rom) (iterations k) k.N64_ROM_CHECKSUM_START
        { t1 := seed, t2 := seed, t3 := seed, t4 := seed, t5 := seed, t6 := seed }), ?_⟩
    intro crc
    unfold calculateChecksum
    simp only [hseed]
    rw [checksumLoop_run]

/-- C23: `calculateChecksum` returns 1 and leaves `crc` as it was exactly when the CIC
version is none of 6101, 7102, 6102, 6103, 6105, 6106, which is when `getCICVersion`
returned 0; otherwise it returns 0 with both words of `crc` written, whatever they
held. Hence `checkChecksum` is false for every ROM with an unrecognised boot code, and
true exactly when the status is 0 and the two words equal `crc1` and `crc2` of the
header. -/
theorem calculateChecksum_status (k : N64Constants) (rom : N64Rom) (crc : Nat × Nat) :
    (¬ recognised (getCICVersion k rom) ↔ getCICVersion k rom = 0) ∧
      (¬ recognised (getCICVersion k rom) → calculateChecksum k rom crc = some (1, crc)) ∧
      (recognised (getCICVersion k rom) →
        ∃ words : Nat × Nat, ∀ crc0, calculateChecksum k rom crc0 = some (0, words)) ∧
      ((∃ out, calculateChecksum k rom crc = some (1, out)) ↔
        ¬ recognised (getCICVersion k rom)) ∧
      (¬ recognised (getCICVersion k rom) → checkChecksum k rom crc = some false) ∧
      (checkChecksum k rom crc = some true ∨ checkChecksum k rom crc = some false) ∧
      (checkChecksum k rom crc = some true ↔
        ∃ words : Nat × Nat, calculateChecksum k rom crc = some (0, words) ∧
          words.1 = rom.crc1 % 2 ^ 32 ∧ words.2 = rom.crc2 % 2 ^ 32) := by
  have hzero : ¬ recognised (getCICVersion k rom) ↔ getCICVersion k rom = 0 := by
    constructor
    · intro h
      rcases getCICVersion_cases k rom with h0 | hr
      · exact h0
      · exact absurd hr h
    · intro h0 hr
      rw [h0] at hr
      revert hr
      decide
  have hcheck : ∀ (status : Nat) (words : Nat × Nat),
      calculateChecksum k rom crc = some (status, words) →
      checkChecksum k rom crc =
        some (decide (status = 0 ∧ words.1 = rom.crc1 % 2 ^ 32 ∧ words.2 = rom.crc2 % 2 ^ 32)) := by
    intro status words hcalc
    unfold checkChecksum
    rw [hcalc]
    simp only
    by_cases hs : status = 0
    · by_cases hw : words.1 = rom.crc1 % 2 ^ 32 ∧ words.2 = rom.crc2 % 2 ^ 32
      · rw [if_pos hs, if_pos hw, decide_eq_true ⟨hs, hw⟩]
      · rw [if_pos hs, if_neg hw, decide_eq_false (fun h => hw h.2)]
    · rw [if_neg hs, decide_eq_false (fun h => hs h.1)]
  by_cases hr : recognised (getCICVersion k rom)
  · obtain ⟨words, hw⟩ := calculateChecksum_of_recognised k rom hr
    have hc := hcheck 0 words (hw crc)
    refine ⟨hzero, fun h => absurd hr h, fun _ => ⟨words, hw⟩, ?_, fun h => absurd hr h, ?_, ?_⟩
    · constructor
      · rintro ⟨out, hout⟩
        rw [hw crc] at hout
        have h10 : (0 : Nat) = 1 := (Prod.mk.inj (Option.some.inj hout)).1
        omega
      · intro h; exact absurd hr h
    · by_cases hd : (0 = 0 ∧ words.1 = rom.crc1 % 2 ^ 32 ∧ words.2 = rom.crc2 % 2 ^ 32)
      · left; rw [hc, decide_eq_true hd]
      · right; rw [hc, decide_eq_false hd]
    · rw [hc]
      constructor
      · intro h
        have h3 := of_decide_eq_true (Option.some.inj h)
        exact ⟨words, hw crc, h3.2.1, h3.2.2⟩
      · rintro ⟨w, hweq, h1, h2⟩
        rw [hw crc] at hweq
        have hww : words = w := (Prod.mk.inj (Option.some.inj hweq)).2
        subst hww
        rw [decide_eq_true ⟨rfl, h1, h2⟩]
  · have hu := calculateChecksum_of_unrecognised k rom crc hr
    have hc := hcheck 1 crc hu
    have hfalse : ¬ (1 = 0 ∧ crc.1 = rom.crc1 % 2 ^ 32 ∧ crc.2 = rom.crc2 % 2 ^ 32) :=
      fun h => absurd h.1 (by decide)
    rw [decide_eq_false hfalse] at hc
    refine ⟨hzero, fun _ => hu, fun h => absurd h hr, ?_, fun _ => hc, Or.inr hc, ?_⟩
    · exact ⟨fun _ => hr, fun _ => ⟨crc, hu⟩⟩
    · rw [hc]
      constructor
      · intro h
        exact absurd (Option.some.inj h) (by decide)
      · rintro ⟨w, hweq, _, _⟩
        rw [hu] at hweq
        have h10 : (1 : Nat) = 0 := (Prod.mk.inj (Option.some.inj hweq)).1
        omega

/-- Evaluation of the checksum functions: an unrecognised boot code gives status 1 with
`crc` untouched and `checkChecksum` false; the boot code of CIC 6102 gives status 0 and
two fresh words, and `checkChecksum` is true exactly with those words in the header. -/
theorem calculateChecksum_examples :
    getCICVersion exampleN64 (exampleRom 0x12345678 0 0 0) = 0 ∧
      calculateChecksum exampleN64 (exampleRom 0x12345678 0 0 0) (7, 9) = some (1, (7, 9)) ∧
      checkChecksum exampleN64 (exampleRom 0x12345678 0 7 9) (7, 9) = some false ∧
      getCICVersion exampleN64 (exampleRom 0x90BB6CB5 0 0 0) = 6102 ∧
      calculateChecksum exampleN64 (exampleRom 0x90BB6CB5 0 0 0) (7, 9) =
        some (0, (0x0735B225, 0x095ED669)) ∧
      checkChecksum exampleN64 (exampleRom 0x90BB6CB5 0 0x0735B225 0x095ED669) (7, 9)
        = some true ∧
      checkChecksum exampleN64 (exampleRom 0x90BB6CB5 0 0x0735B225 0) (7, 9) = some false := by
  decide

end N64RomFormat

end REDasm
